import Mathlib

/-!
# ABBY firmware: acquisition loop, peripheral port and cipher back ends

A shallow embedding of `firmware/src/main.c`, `firmware/src/peripherals.cpp`,
`firmware/include/main.h` and the four `lib/*/ecrypt-sync.c` layers.

* Bytes are `Fin 256`.  The transport is a finite list of bytes still to arrive.
* Every call that the C code makes into the peripheral port or the cipher
  back end is recorded, in order, in a trace of `Event`s.
* The constants of the absent `ecrypt-sync.h` headers (`ECRYPT_BLOCKLENGTH`,
  `ECRYPT_MAXKEYSIZE`, `ECRYPT_MAXIVSIZE`) and the primitives of the absent
  cipher libraries are parameters.
-/

namespace ABBY

/-! ## Data model -/

abbrev Byte := Fin 256

/-- The marker of `main.h`: `#define START_BYTE 0xAE`. -/
def START_BYTE : Byte := 0xAE

/-- The peripheral realisation chosen by the preprocessor in `peripherals.cpp`:
`ELMO`, `ARDUINO`, `STM32F0 || STM32F1`, or none of them (stdin/stdout). -/
inductive Port where
  | native
  | elmo
  | arduino
  | stm32
deriving DecidableEq

/-- One observable effect of the firmware: a call into the port or the back end,
or one `NOP` instruction of the inline padding. -/
inductive Event where
  | init_peripherals
  | recv (b : Byte)
  | send (b : Byte)
  | keysetup (key : List Byte)
  | ivsetup (iv : List Byte)
  | set_trigger
  | nop
  | encrypt (plaintext : List Byte)
  | clear_trigger
  | program_end
deriving DecidableEq

/-- How a piece of code ends.
* `ret a input tr`: it returned `a`, leaving `input` unread, after the effects `tr`;
* `exited c input tr`: the process ended through `exit(c)`;
* `starved tr`: a non-native port was asked for a byte the transport does not hold;
* `diverge`: the fuel ran out. -/
inductive Res (α : Type) where
  | ret (a : α) (input : List Byte) (tr : List Event)
  | exited (code : Nat) (input : List Byte) (tr : List Event)
  | starved (tr : List Event)
  | diverge
deriving DecidableEq

/-- Sequencing: continue with `f` when the first part returned. -/
def Res.bind {α β : Type} (r : Res α) (f : α → List Byte → List Event → Res β) : Res β :=
  match r with
  | .ret a i t => f a i t
  | .exited c i t => .exited c i t
  | .starved t => .starved t
  | .diverge => .diverge

/-- The effects performed up to the point where the code ended. -/
def Res.trace {α : Type} : Res α → List Event
  | .ret _ _ t => t
  | .exited _ _ t => t
  | .starved t => t
  | .diverge => []

/-- The bytes sent, in order, in a trace. -/
def sent : List Event → List Byte
  | [] => []
  | .send b :: t => b :: sent t
  | _ :: t => sent t

/-- The bytes received, in order, in a trace. -/
def received : List Event → List Byte
  | [] => []
  | .recv b :: t => b :: received t
  | _ :: t => received t

/-! ## peripherals.cpp -/

/-- The loop of `receive_text`:
`for (uint8_t i = 0; i < n; i++) { input = getchar(); if (input < 0) exit(0); text[i] = input; }`
with the 8-bit counter `i` and the `unsigned int` bound `n`. -/
def receive_loop (port : Port) (n : Nat) :
    List Byte → Nat → List Byte → List Event → Res (List Byte)
  | [], i, text, tr =>
    if i < n then
      match port with
      | .native => .exited 0 [] tr
      | _ => .starved tr
    else .ret text [] tr
  | b :: rest, i, text, tr =>
    if i < n then
      receive_loop port n rest ((i + 1) % 256) (text.set i b) (tr ++ [.recv b])
    else .ret text (b :: rest) tr

/-- `void receive_text(unsigned char *text, unsigned int n)`. -/
def receive_text (port : Port) (text : List Byte) (n : Nat) (input : List Byte)
    (tr : List Event) : Res (List Byte) :=
  receive_loop port n input 0 text tr

/-- The loop of `send_text`: `for (uint8_t i = 0; i < n; i++) { putchar(text[i]); }`.
It reads no input, so it is run on fuel; `none` is fuel exhaustion. -/
def send_loop (text : List Byte) (n : Nat) : Nat → Nat → List Event → Option (List Event)
  | 0, _, _ => none
  | fuel + 1, i, tr =>
    if i < n then send_loop text n fuel ((i + 1) % 256) (tr ++ [.send (text.getD i 0)])
    else some tr

/-- `void send_text(unsigned char *text, unsigned int n)`. -/
def send_text (fuel : Nat) (text : List Byte) (n : Nat) (tr : List Event) :
    Option (List Event) :=
  send_loop text n fuel 0 tr

/-! ## main.h -/

/-- `#define tNOP __asm__("NOP;NOP;NOP;NOP;NOP;NOP;NOP;NOP;NOP;NOP;")`. -/
def tNOP : List Event :=
  [.nop, .nop, .nop, .nop, .nop, .nop, .nop, .nop, .nop, .nop]

/-- `#define hNOP tNOP;tNOP;tNOP;tNOP;tNOP;tNOP;tNOP;tNOP;tNOP;tNOP`. -/
def hNOP : List Event :=
  tNOP ++ tNOP ++ tNOP ++ tNOP ++ tNOP ++ tNOP ++ tNOP ++ tNOP ++ tNOP ++ tNOP

/-- `#define WAIT_NOP hNOP;hNOP;hNOP;hNOP;hNOP`. -/
def WAIT_NOP : List Event :=
  hNOP ++ hNOP ++ hNOP ++ hNOP ++ hNOP

/-- The interface of `ecrypt-sync.h` as `main.c` uses it.  `G` is everything a
back end may read and write: the `ECRYPT_ctx` and the back end's own globals.
The ciphertext buffer is in/out; the key, iv and plaintext are `const`. -/
structure Backend (G : Type) where
  ECRYPT_BLOCKLENGTH : Nat
  ECRYPT_MAXKEYSIZE : Nat
  ECRYPT_MAXIVSIZE : Nat
  ECRYPT_keysetup : G → List Byte → Nat → Nat → G
  ECRYPT_ivsetup : G → List Byte → G
  ECRYPT_encrypt_bytes : G → List Byte → List Byte → Nat → G × List Byte
  encrypt_length : ∀ g p c n, (ECRYPT_encrypt_bytes g p c n).2.length = c.length

/-- `#define TEXT_LENGTH (ECRYPT_BLOCKLENGTH / 8)`. -/
def TEXT_LENGTH {G : Type} (B : Backend G) : Nat := B.ECRYPT_BLOCKLENGTH / 8

/-- `#define KEY_LENGTH (ECRYPT_MAXKEYSIZE / 8)`. -/
def KEY_LENGTH {G : Type} (B : Backend G) : Nat := B.ECRYPT_MAXKEYSIZE / 8

/-- `#define IV_LENGTH (ECRYPT_MAXIVSIZE / 8)`. -/
def IV_LENGTH {G : Type} (B : Backend G) : Nat := B.ECRYPT_MAXIVSIZE / 8

/-! ## main.c -/

/-- The locals of `main`: `start`, `cleartext`, `ciphertext`, `key`, `iv`, `ctx`. -/
structure Locals (G : Type) where
  start : Byte
  cleartext : List Byte
  ciphertext : List Byte
  key : List Byte
  iv : List Byte
  ctx : G

/-- One pass through the body of `while (1)` in `main`.  The Boolean of the
result is `true` when the pass ended in the `break` of `#ifdef ELMO`. -/
def loop_body {G : Type} (port : Port) (B : Backend G) (fuel : Nat) (L : Locals G)
    (input : List Byte) (tr : List Event) : Res (Locals G × Bool) :=
  (receive_text port [L.start] 1 input tr).bind fun s input tr =>
  let start := s.headD L.start
  if start ≠ START_BYTE then
    .ret ({ L with start := start }, false) input tr
  else
  (receive_text port L.key (KEY_LENGTH B) input tr).bind fun key input tr =>
  (receive_text port L.iv (IV_LENGTH B) input tr).bind fun iv input tr =>
  (receive_text port L.cleartext (TEXT_LENGTH B) input tr).bind fun cleartext input tr =>
  let ctx1 := B.ECRYPT_keysetup L.ctx key B.ECRYPT_MAXKEYSIZE B.ECRYPT_MAXIVSIZE
  let tr := tr ++ [.keysetup key]
  let ctx2 := B.ECRYPT_ivsetup ctx1 iv
  let tr := tr ++ [.ivsetup iv]
  let tr := tr ++ [.set_trigger]
  let tr := tr ++ WAIT_NOP
  let out := B.ECRYPT_encrypt_bytes ctx2 cleartext L.ciphertext (TEXT_LENGTH B)
  let tr := tr ++ [.encrypt cleartext]
  let tr := tr ++ WAIT_NOP
  let tr := tr ++ [.clear_trigger]
  match send_text fuel [start] 1 tr with
  | none => .diverge
  | some tr =>
    match send_text fuel out.2 (TEXT_LENGTH B) tr with
    | none => .diverge
    | some tr =>
      .ret ({ start := start, cleartext := cleartext, ciphertext := out.2,
              key := key, iv := iv, ctx := out.1 }, decide (port = .elmo)) input tr

/-- The `while (1)` loop of `main`, one unit of fuel per pass. -/
def main_loop {G : Type} (port : Port) (B : Backend G) :
    Nat → Locals G → List Byte → List Event → Res Unit
  | 0, _, _, _ => .diverge
  | fuel + 1, L, input, tr =>
    (loop_body port B fuel L input tr).bind fun r input tr =>
      if r.2 then .ret () input tr else main_loop port B fuel r.1 input tr

/-- What the uninitialised locals of `main` hold on entry. -/
structure Junk (G : Type) where
  start : Byte
  key : Nat → Byte
  iv : Nat → Byte
  ctx : G

/-- The locals as declared at the top of `main`: `cleartext` and `ciphertext`
are `= {0}`, the others are uninitialised. -/
def initial_locals {G : Type} (B : Backend G) (J : Junk G) : Locals G :=
  { start := J.start
    cleartext := List.replicate (TEXT_LENGTH B) 0
    ciphertext := List.replicate (TEXT_LENGTH B) 0
    key := (List.range (KEY_LENGTH B)).map J.key
    iv := (List.range (IV_LENGTH B)).map J.iv
    ctx := J.ctx }

/-- `int main(void)`: `init_peripherals(); ... while (1) {...} program_end(); return 0;`. -/
def main {G : Type} (port : Port) (B : Backend G) (J : Junk G) (fuel : Nat)
    (input : List Byte) : Res Nat :=
  (main_loop port B fuel (initial_locals B J) input [.init_peripherals]).bind
    fun _ input tr => .ret 0 input (tr ++ [.program_end])

/-! ## lib/*/ecrypt-sync.c -/

/-- The buffer after storing `bs` at positions `i, i+1, ...`: the assignments
`text[i] = b0; text[i+1] = b1; ...` in that order. -/
def store_from (text : List Byte) : Nat → List Byte → List Byte
  | _, [] => text
  | i, b :: bs => store_from (text.set i b) (i + 1) bs

/-- The loop `for (j = 0; j < n; j++) dst[j] = src[j];`, also `memcpy(dst, src, n)`. -/
def copy_bytes (dst src : List Byte) (n : Nat) : List Byte :=
  store_from dst 0 ((List.range n).map fun j => src.getD j 0)

/-- The back end of `lib/generated-code/ecrypt-sync.c`.  `generated_code` comes
from the absent `generated.h`; it acts on the back end's own state. -/
def generated {G : Type} (blocklength maxkeysize maxivsize : Nat) (generated_code : G → G) :
    Backend G where
  ECRYPT_BLOCKLENGTH := blocklength
  ECRYPT_MAXKEYSIZE := maxkeysize
  ECRYPT_MAXIVSIZE := maxivsize
  ECRYPT_keysetup := fun g _ _ _ => g
  ECRYPT_ivsetup := fun g _ => g
  ECRYPT_encrypt_bytes := fun g _ ciphertext _ => (generated_code g, ciphertext)
  encrypt_length := fun _ _ _ _ => rfl

/-- The back end of `lib/tinyaes/ecrypt-sync.c`.  `AES_init_ctx` and
`AES_ECB_encrypt` come from the absent `aes.h`; the latter works in place on a
16-byte buffer. -/
def tinyaes {C : Type} (blocklength maxkeysize maxivsize : Nat)
    (AES_init_ctx : C → List Byte → C) (AES_ECB_encrypt : C → List Byte → List Byte) :
    Backend C where
  ECRYPT_BLOCKLENGTH := blocklength
  ECRYPT_MAXKEYSIZE := maxkeysize
  ECRYPT_MAXIVSIZE := maxivsize
  ECRYPT_keysetup := fun ctx key _ _ => AES_init_ctx ctx key
  ECRYPT_ivsetup := fun ctx _ => ctx
  ECRYPT_encrypt_bytes := fun ctx plaintext ciphertext _ =>
    let c1 := copy_bytes ciphertext plaintext 16
    (ctx, copy_bytes c1 (AES_ECB_encrypt ctx (c1.take 16)) 16)
  encrypt_length := fun _ _ _ _ => by
    have len : ∀ (bs text : List Byte) (i : Nat),
        (store_from text i bs).length = text.length := by
      intro bs
      induction bs with
      | nil => intro text i; rfl
      | cons b bs ih => intro text i; simp [store_from, ih]
    simp [copy_bytes, len]

/-- The back end of `lib/byte-masked-aes/ecrypt-sync.c`.  `KeyExpansion`,
`set_mask`, `init_masking`, `maskstate` and `aes128` come from the absent
`byte_mask_aes.h`; they act on that library's globals `S`, the last two also in
place on a 16-byte buffer. -/
def byte_masked_aes {S : Type} (blocklength maxkeysize maxivsize : Nat)
    (KeyExpansion : S → List Byte → S) (set_mask : S → List Byte → S)
    (init_masking : S → S) (maskstate : S → List Byte → S × List Byte)
    (aes128 : S → List Byte → S × List Byte) : Backend S where
  ECRYPT_BLOCKLENGTH := blocklength
  ECRYPT_MAXKEYSIZE := maxkeysize
  ECRYPT_MAXIVSIZE := maxivsize
  ECRYPT_keysetup := fun g key _ _ => KeyExpansion g key
  ECRYPT_ivsetup := fun g iv => init_masking (set_mask g iv)
  ECRYPT_encrypt_bytes := fun g plaintext ciphertext _ =>
    let c1 := copy_bytes ciphertext plaintext 16
    let m := maskstate g (c1.take 16)
    let c2 := copy_bytes c1 m.2 16
    let a := aes128 m.1 (c2.take 16)
    (a.1, copy_bytes c2 a.2 16)
  encrypt_length := fun _ _ _ _ => by
    have len : ∀ (bs text : List Byte) (i : Nat),
        (store_from text i bs).length = text.length := by
      intro bs
      induction bs with
      | nil => intro text i; rfl
      | cons b bs ih => intro text i; simp [store_from, ih]
    simp [copy_bytes, len]

/-- The globals of `lib/xoodoo/ecrypt-sync.c`: `volatile uint8_t XoodooState[48]`
and `extern uint32_t XoodooMask[12]`. -/
structure XoodooGlobals where
  XoodooState : List Byte
  XoodooMask : List Nat

/-- Byte order of the target, for the `uint32_t *` views of byte arrays. -/
inductive Endian where
  | little
  | big
deriving DecidableEq

/-- Byte `j` (0 = least significant) of a 32-bit word. -/
def word_byte (w j : Nat) : Byte := ⟨w / 256 ^ j % 256, Nat.mod_lt _ (by decide)⟩

/-- The word `((uint32_t *)m)[k]`. -/
def load32 (e : Endian) (m : List Byte) (k : Nat) : Nat :=
  let b0 := (m.getD (4 * k) 0).val
  let b1 := (m.getD (4 * k + 1) 0).val
  let b2 := (m.getD (4 * k + 2) 0).val
  let b3 := (m.getD (4 * k + 3) 0).val
  match e with
  | .little => b0 + 256 * b1 + 65536 * b2 + 16777216 * b3
  | .big => b3 + 256 * b2 + 65536 * b1 + 16777216 * b0

/-- The store `((uint32_t *)m)[k] = w`. -/
def store32 (e : Endian) (m : List Byte) (k w : Nat) : List Byte :=
  match e with
  | .little =>
    (((m.set (4 * k) (word_byte w 0)).set (4 * k + 1) (word_byte w 1)).set (4 * k + 2)
      (word_byte w 2)).set (4 * k + 3) (word_byte w 3)
  | .big =>
    (((m.set (4 * k) (word_byte w 3)).set (4 * k + 1) (word_byte w 2)).set (4 * k + 2)
      (word_byte w 1)).set (4 * k + 3) (word_byte w 0)

/-- `void Absorb_Block(uint32_t *state, uint32_t *block)`:
`for (int i = 0; i < 4; i++) state[i] ^= block[i];`. -/
def Absorb_Block (e : Endian) (state block : List Byte) : List Byte :=
  (List.range 4).foldl (fun st i => store32 e st i (load32 e st i ^^^ load32 e block i)) state

/-- The 48 values that `ECRYPT_keysetup` of the Xoodoo layer assigns to
`XoodooState[0]`, ..., `XoodooState[47]`, in that order. -/
def xoodoo_fixed_key : List Byte :=
  [0xfa, 0x6f, 0x44, 0x1a, 0x3f, 0xeb, 0x90, 0xa0, 0xad, 0x72, 0xb9, 0x6f,
   0xf2, 0xaa, 0x1f, 0xbe, 0xd7, 0x24, 0xce, 0x97, 0x3c, 0x28, 0xb4, 0x93,
   0x03, 0x02, 0x5d, 0x51, 0x4c, 0xa5, 0x8d, 0x3e, 0x0a, 0x02, 0xb1, 0x66,
   0x94, 0x38, 0xcf, 0x10, 0x52, 0xf8, 0x68, 0x67, 0xa2, 0xad, 0xcf, 0x89]

/-- The back end of `lib/xoodoo/ecrypt-sync.c`.  `Xoodoo_Initialize_Masks` and
`Xoodoo_Permute_12rounds` come from the absent `xoodoo.h`; the first fills the
mask array it is handed, the second works in place on state and mask. -/
def xoodoo (e : Endian) (blocklength maxkeysize maxivsize : Nat)
    (Xoodoo_Initialize_Masks : List Nat → List Byte → List Nat)
    (Xoodoo_Permute_12rounds : List Byte → List Nat → List Byte × List Nat) :
    Backend XoodooGlobals where
  ECRYPT_BLOCKLENGTH := blocklength
  ECRYPT_MAXKEYSIZE := maxkeysize
  ECRYPT_MAXIVSIZE := maxivsize
  ECRYPT_keysetup := fun g _ _ _ =>
    { g with XoodooState := store_from g.XoodooState 0 xoodoo_fixed_key }
  ECRYPT_ivsetup := fun g iv =>
    { g with XoodooMask := Xoodoo_Initialize_Masks g.XoodooMask iv }
  ECRYPT_encrypt_bytes := fun g plaintext ciphertext _ =>
    let absorbed := Absorb_Block e g.XoodooState plaintext
    let p := Xoodoo_Permute_12rounds absorbed g.XoodooMask
    ({ XoodooState := p.1, XoodooMask := p.2 }, copy_bytes ciphertext p.1 (blocklength / 8))
  encrypt_length := fun _ _ _ _ => by
    have len : ∀ (bs text : List Byte) (i : Nat),
        (store_from text i bs).length = text.length := by
      intro bs
      induction bs with
      | nil => intro text i; rfl
      | cons b bs ih => intro text i; simp [store_from, ih]
    simp [copy_bytes, len]

/-! ## Vocabulary for stating the properties -/

/-- One request as it travels on the wire: key, iv and plaintext fields. -/
structure Frame where
  key : List Byte
  iv : List Byte
  plaintext : List Byte
deriving DecidableEq

/-- The bytes of a request: the marker, then key, iv and plaintext. -/
def Frame.bytes (f : Frame) : List Byte :=
  START_BYTE :: (f.key ++ f.iv ++ f.plaintext)

/-- A request whose fields have the lengths the build is configured for. -/
def Frame.Valid {G : Type} (B : Backend G) (f : Frame) : Prop :=
  f.key.length = KEY_LENGTH B ∧ f.iv.length = IV_LENGTH B ∧
    f.plaintext.length = TEXT_LENGTH B

/-- The three field lengths fit the 8-bit counter of the port loops. -/
def Fits {G : Type} (B : Backend G) : Prop :=
  KEY_LENGTH B ≤ 255 ∧ IV_LENGTH B ≤ 255 ∧ TEXT_LENGTH B ≤ 255

/-- The buffers of `main` have their declared sizes. -/
def Locals.Sized {G : Type} (B : Backend G) (L : Locals G) : Prop :=
  L.cleartext.length = TEXT_LENGTH B ∧ L.ciphertext.length = TEXT_LENGTH B ∧
    L.key.length = KEY_LENGTH B ∧ L.iv.length = IV_LENGTH B

/-- The three back-end calls that `main` makes for one request, from back-end
state `g` and ciphertext buffer `c`: the state and the buffer they leave. -/
def Backend.serve {G : Type} (B : Backend G) (g : G) (c : List Byte) (f : Frame) :
    G × List Byte :=
  B.ECRYPT_encrypt_bytes
    (B.ECRYPT_ivsetup (B.ECRYPT_keysetup g f.key B.ECRYPT_MAXKEYSIZE B.ECRYPT_MAXIVSIZE) f.iv)
    f.plaintext c (TEXT_LENGTH B)

/-- The response to a request: the marker, then the ciphertext buffer. -/
def response {G : Type} (B : Backend G) (g : G) (c : List Byte) (f : Frame) : List Byte :=
  START_BYTE :: (B.serve g c f).2

/-- The effects between the last receive of a request and the first send of
its response. -/
def window (f : Frame) : List Event :=
  [.keysetup f.key, .ivsetup f.iv, .set_trigger] ++ WAIT_NOP ++ [.encrypt f.plaintext]
    ++ WAIT_NOP ++ [.clear_trigger]

/-- All effects of one processed request. -/
def frame_trace {G : Type} (B : Backend G) (g : G) (c : List Byte) (f : Frame) :
    List Event :=
  f.bytes.map Event.recv ++ window f ++ (response B g c f).map Event.send

/-- The locals of `main` after a request has been processed. -/
def Locals.after {G : Type} (B : Backend G) (L : Locals G) (f : Frame) : Locals G :=
  { start := START_BYTE, cleartext := f.plaintext,
    ciphertext := (B.serve L.ctx L.ciphertext f).2,
    key := f.key, iv := f.iv, ctx := (B.serve L.ctx L.ciphertext f).1 }

/-- The locals of `main` after a sequence of requests. -/
def Locals.after_all {G : Type} (B : Backend G) : Locals G → List Frame → Locals G
  | L, [] => L
  | L, f :: fs => Locals.after_all B (L.after B f) fs

/-- All effects of a sequence of processed requests, from back-end state `g`
and ciphertext buffer `c`. -/
def frames_trace {G : Type} (B : Backend G) : G → List Byte → List Frame → List Event
  | _, _, [] => []
  | g, c, f :: fs =>
    frame_trace B g c f ++ frames_trace B (B.serve g c f).1 (B.serve g c f).2 fs

/-- The concatenated responses to a sequence of requests. -/
def responses {G : Type} (B : Backend G) : G → List Byte → List Frame → List Byte
  | _, _, [] => []
  | g, c, f :: fs =>
    response B g c f ++ responses B (B.serve g c f).1 (B.serve g c f).2 fs

/-- The bytes of a sequence of requests sent back to back. -/
def wire : List Frame → List Byte
  | [] => []
  | f :: fs => f.bytes ++ wire fs

/-- The trigger level after a trace, from level `lvl`: asserted between a
`set_trigger` and the next `clear_trigger`. -/
def trigger_after (lvl : Bool) : List Event → Bool
  | [] => lvl
  | .set_trigger :: t => trigger_after true t
  | .clear_trigger :: t => trigger_after false t
  | _ :: t => trigger_after lvl t

/-- The trigger discipline of a trace, from level `lvl`: `set_trigger` only
while cleared, `clear_trigger` and the encrypt call only while asserted, and
every other call (receive, send, key setup, iv setup, init, program end) only
while cleared; padding `NOP`s anywhere. -/
def disciplined (lvl : Bool) : List Event → Bool
  | [] => true
  | .set_trigger :: t => !lvl && disciplined true t
  | .clear_trigger :: t => lvl && disciplined false t
  | .encrypt _ :: t => lvl && disciplined lvl t
  | .nop :: t => disciplined lvl t
  | _ :: t => !lvl && disciplined lvl t

/-- The padding `NOP`s executed before the encrypt call of a trace. -/
def nops_before_encrypt : List Event → Nat
  | [] => 0
  | .encrypt _ :: _ => 0
  | .nop :: t => nops_before_encrypt t + 1
  | _ :: t => nops_before_encrypt t

/-- The padding `NOP`s executed after the encrypt call of a trace. -/
def nops_after_encrypt : List Event → Nat
  | [] => 0
  | .encrypt _ :: t => t.count .nop
  | _ :: t => nops_after_encrypt t

/-- How the port ends the run when the transport holds no further byte. -/
def end_of_input {α : Type} (port : Port) (tr : List Event) : Res α :=
  match port with
  | .native => .exited 0 [] tr
  | _ => .starved tr

/-- The locals of `main` after a run of bytes that are not the marker. -/
def Locals.skip {G : Type} (L : Locals G) : List Byte → Locals G
  | [] => L
  | b :: bs => Locals.skip { L with start := b } bs

/-- How a whole run of `main` ends once the loop has left the trace `tr` and the
transport is empty: in single-shot mode `program_end(); return 0;`, otherwise
the way the port ends a run without input. -/
def finish (port : Port) (tr : List Event) : Res Nat :=
  if port = .elmo then .ret 0 [] (tr ++ [.program_end]) else end_of_input port tr

/-- Sample value for the `AES_init_ctx` parameter, to instantiate `tinyaes` at a
concrete back end: the context holds the key.  Not the real key schedule. -/
def sample_init_ctx (_ : List Byte) (key : List Byte) : List Byte := key

/-- Sample value for the `AES_ECB_encrypt` parameter: adds the context to the
block bytewise.  Not the real cipher. -/
def sample_ECB_encrypt (ctx : List Byte) (buf : List Byte) : List Byte :=
  List.zipWith (fun a b => a + b + 1) buf ctx

/-- The unmasked back end at 128-bit block, key and iv, over the sample primitives. -/
def tinyaes_sample : Backend (List Byte) :=
  tinyaes 128 128 128 sample_init_ctx sample_ECB_encrypt

/-- The all-zero request of 16-byte key, iv and plaintext. -/
def zero_frame : Frame :=
  { key := List.replicate 16 0, iv := List.replicate 16 0, plaintext := List.replicate 16 0 }

/-- Locals as `main` holds them on entry, the uninitialised ones zero. -/
def zero_junk : Junk (List Byte) :=
  { start := 0, key := fun _ => 0, iv := fun _ => 0, ctx := [] }

/-- A back end that carries nothing from one request into the ciphertext of
the next: the ciphertext it leaves for a request depends neither on the state it
was in before key setup nor on what the ciphertext buffer held. -/
def Backend.Memoryless {G : Type} (B : Backend G) : Prop :=
  ∀ (g g1 : G) (c c1 : List Byte) (f : Frame), f.Valid B →
    c.length = TEXT_LENGTH B → c1.length = TEXT_LENGTH B →
    (B.serve g c f).2 = (B.serve g1 c1 f).2

/-- The same condition as the specification words it: the result of key setup is a
function of the key and sizes alone, and the ciphertext that encrypt leaves is a
function of its context and plaintext alone (it writes the whole buffer of
TEXT_LENGTH bytes). -/
def Backend.Functional {G : Type} (B : Backend G) : Prop :=
  (∀ (g g1 : G) (key : List Byte) (ks vs : Nat),
      B.ECRYPT_keysetup g key ks vs = B.ECRYPT_keysetup g1 key ks vs)
  ∧ (∀ (g : G) (p c c1 : List Byte), c.length = TEXT_LENGTH B → c1.length = TEXT_LENGTH B →
      (B.ECRYPT_encrypt_bytes g p c (TEXT_LENGTH B)).2
        = (B.ECRYPT_encrypt_bytes g p c1 (TEXT_LENGTH B)).2)

/-- The synthetic back end at 128-bit sizes, with a `generated_code` that counts
its calls. -/
def generated_sample : Backend Nat := generated 128 128 128 (fun g => g + 1)

/-- Locals on entry for the synthetic sample, the call counter at zero. -/
def counter_junk : Junk Nat :=
  { start := 0, key := fun _ => 0, iv := fun _ => 0, ctx := 0 }

/-- A second request, of distinct field contents. -/
def other_frame : Frame :=
  { key := List.replicate 16 0x11, iv := List.replicate 16 0x22,
    plaintext := List.replicate 16 0x33 }

/-- A trace that leaves the loop fit to wait for a marker: the trigger
discipline was kept from a cleared trigger, the trigger is cleared again, and
`program_end` was not called. -/
def Calm (tr : List Event) : Prop :=
  disciplined false tr = true ∧ trigger_after false tr = false ∧ Event.program_end ∉ tr

/-- Bytewise exclusive-or of two byte strings. -/
def xor_bytes (a b : List Byte) : List Byte := List.zipWith (fun x y => x ^^^ y) a b

/-- Sample value for the `Xoodoo_Initialize_Masks` parameter: the mask words are
the iv bytes.  Not the real mask derivation. -/
def sample_masks (_ : List Nat) (iv : List Byte) : List Nat := iv.map Fin.val

/-- Sample value for the `Xoodoo_Permute_12rounds` parameter: reverses the state
and adds the low byte of the first mask word to each byte.  Not the real
permutation. -/
def sample_permute (st : List Byte) (m : List Nat) : List Byte × List Nat :=
  (st.reverse.map fun b => b + Fin.ofNat (m.headD 0), m)

/-- The Xoodoo back end on a little-endian target at 128-bit block, key and iv,
over the sample primitives. -/
def xoodoo_sample : Backend XoodooGlobals :=
  xoodoo .little 128 128 128 sample_masks sample_permute

/-- Locals on entry for the Xoodoo sample: a zeroed 48-byte state, no masks. -/
def xoodoo_junk : Junk XoodooGlobals :=
  { start := 0, key := fun _ => 0, iv := fun _ => 0,
    ctx := { XoodooState := List.replicate 48 0, XoodooMask := [] } }

/-- The request `other_frame` under a different key. -/
def rekeyed_frame : Frame :=
  { key := List.replicate 16 0xFF, iv := other_frame.iv, plaintext := other_frame.plaintext }

instance {G : Type} (B : Backend G) : Decidable (Fits B) := by
  unfold Fits; infer_instance

instance {G : Type} (B : Backend G) (f : Frame) : Decidable (f.Valid B) := by
  unfold Frame.Valid; infer_instance

instance {G : Type} (B : Backend G) (L : Locals G) : Decidable (L.Sized B) := by
  unfold Locals.Sized; infer_instance

instance (tr : List Event) : Decidable (Calm tr) := by
  unfold Calm; infer_instance

/-! ## Basic facts about the port loops -/

theorem store_from_length (bs : List Byte) : ∀ (text : List Byte) (i : Nat),
    (store_from text i bs).length = text.length := by
  induction bs with
  | nil => intro text i; rfl
  | cons b bs ih => intro text i; simp [store_from, ih]

theorem copy_bytes_length (dst src : List Byte) (n : Nat) :
    (copy_bytes dst src n).length = dst.length :=
  store_from_length _ _ _

theorem store_from_append (bs : List Byte) : ∀ (pre old post : List Byte),
    old.length = bs.length →
    store_from (pre ++ old ++ post) pre.length bs = pre ++ bs ++ post := by
  induction bs with
  | nil =>
    intro pre old post h
    have : old = [] := List.length_eq_zero.mp (by simpa using h)
    simp [store_from, this]
  | cons b bs ih =>
    intro pre old post h
    cases old with
    | nil => simp at h
    | cons o old =>
      simp only [List.length_cons, Nat.add_right_cancel_iff] at h
      have hs : (pre ++ o :: old ++ post).set pre.length b = (pre ++ [b]) ++ old ++ post := by
        simp [List.set_append_right]
      have := ih (pre ++ [b]) old post h
      simp only [List.length_append, List.length_singleton] at this
      rw [store_from, hs, this]
      simp

theorem store_from_zero (bs text : List Byte) (h : text.length = bs.length) :
    store_from text 0 bs = bs := by
  have := store_from_append bs [] text [] h
  simpa using this

theorem receive_loop_ok (port : Port) (n : Nat) (hn : n ≤ 255) (rest : List Byte)
    (bs : List Byte) : ∀ (i : Nat) (text : List Byte) (tr : List Event),
    i + bs.length = n →
    receive_loop port n (bs ++ rest) i text tr
      = .ret (store_from text i bs) rest (tr ++ bs.map Event.recv) := by
  induction bs with
  | nil =>
    intro i text tr h
    simp only [List.length_nil, Nat.add_zero] at h
    subst h
    cases rest <;> simp [receive_loop, store_from]
  | cons b bs ih =>
    intro i text tr h
    simp only [List.length_cons] at h
    have hi : i < n := by omega
    have hm : (i + 1) % 256 = i + 1 := Nat.mod_eq_of_lt (by omega)
    have := ih (i + 1) (text.set i b) (tr ++ [Event.recv b]) (by omega)
    simp only [List.cons_append, receive_loop, hi, if_true, hm]
    have e : tr ++ Event.recv b :: List.map Event.recv bs
        = tr ++ [Event.recv b] ++ List.map Event.recv bs := by simp
    rw [store_from, List.map_cons, e]
    exact this

/-- Below 256, `receive_text` returns after taking exactly the next `n` bytes. -/
theorem receive_text_ok (port : Port) (text bs rest : List Byte) (tr : List Event)
    (hn : bs.length ≤ 255) (ht : text.length = bs.length) :
    receive_text port text bs.length (bs ++ rest) tr
      = .ret bs rest (tr ++ bs.map Event.recv) := by
  unfold receive_text
  rw [receive_loop_ok port bs.length hn rest bs 0 text tr (by omega), store_from_zero bs text ht]

theorem send_loop_ok (n : Nat) (hn : n ≤ 255) (suf : List Byte) :
    ∀ (pre : List Byte) (fuel : Nat) (tr : List Event),
    pre.length + suf.length = n → suf.length < fuel →
    send_loop (pre ++ suf) n fuel pre.length tr = some (tr ++ suf.map Event.send) := by
  induction suf with
  | nil =>
    intro pre fuel tr h hf
    simp only [List.length_nil, Nat.add_zero] at h
    obtain ⟨f, rfl⟩ : ∃ f, fuel = f + 1 := ⟨fuel - 1, by simp at hf; omega⟩
    simp [send_loop, h]
  | cons b suf ih =>
    intro pre fuel tr h hf
    simp only [List.length_cons] at h hf
    obtain ⟨f, rfl⟩ : ∃ f, fuel = f + 1 := ⟨fuel - 1, by omega⟩
    have hi : pre.length < n := by omega
    have hm : (pre.length + 1) % 256 = pre.length + 1 := Nat.mod_eq_of_lt (by omega)
    have hg : (pre ++ b :: suf).getD pre.length 0 = b := by
      rw [List.getD_eq_getElem?_getD, List.getElem?_append_right (Nat.le_refl _)]
      simp
    simp only [send_loop, hi, if_true, hm, hg]
    have := ih (pre ++ [b]) f (tr ++ [Event.send b]) (by simp; omega) (by omega)
    simp only [List.append_assoc, List.singleton_append, List.length_append,
      List.length_singleton] at this
    rw [this]
    simp

/-- Below 256, `send_text` returns after emitting exactly `text[0..n-1]`. -/
theorem send_text_ok (fuel : Nat) (text : List Byte) (tr : List Event)
    (hn : text.length ≤ 255) (hf : text.length < fuel) :
    send_text fuel text text.length tr = some (tr ++ text.map Event.send) := by
  unfold send_text
  have := send_loop_ok text.length hn text [] fuel tr (by simp) hf
  simpa using this

/-! ## One pass of the loop -/

theorem Res.bind_ret {α β : Type} (a : α) (i : List Byte) (t : List Event)
    (f : α → List Byte → List Event → Res β) : (Res.ret a i t).bind f = f a i t := rfl

theorem receive_start (port : Port) (s b : Byte) (rest : List Byte) (tr : List Event) :
    receive_text port [s] 1 (b :: rest) tr = .ret [b] rest (tr ++ [Event.recv b]) := by
  have := receive_text_ok port [s] [b] rest tr (by simp) (by simp)
  simpa using this

/-- A byte other than the marker is dropped and the loop starts over. -/
theorem loop_body_noise {G : Type} (port : Port) (B : Backend G) (fuel : Nat)
    (L : Locals G) (b : Byte) (rest : List Byte) (tr : List Event) (hb : b ≠ START_BYTE) :
    loop_body port B fuel L (b :: rest) tr
      = .ret ({ L with start := b }, false) rest (tr ++ [Event.recv b]) := by
  unfold loop_body
  rw [receive_start, Res.bind_ret]
  simp [hb]

/-- With nothing left to read, the pass ends the way the port ends it. -/
theorem loop_body_eof {G : Type} (port : Port) (B : Backend G) (fuel : Nat)
    (L : Locals G) (tr : List Event) :
    loop_body port B fuel L [] tr = end_of_input port tr := by
  unfold loop_body receive_text end_of_input
  cases port <;> simp [receive_loop, Res.bind]

theorem end_of_input_bind {α β : Type} (port : Port) (tr : List Event)
    (f : α → List Byte → List Event → Res β) :
    (end_of_input port tr : Res α).bind f = end_of_input port tr := by
  cases port <;> rfl

theorem receive_loop_short (port : Port) (n : Nat) (hn : n ≤ 255) (bs : List Byte) :
    ∀ (i : Nat) (text : List Byte) (tr : List Event), i + bs.length < n →
    receive_loop port n bs i text tr = end_of_input port (tr ++ bs.map Event.recv) := by
  induction bs with
  | nil =>
    intro i text tr h
    simp only [List.length_nil, Nat.add_zero] at h
    cases port <;> simp [receive_loop, end_of_input, h]
  | cons b bs ih =>
    intro i text tr h
    simp only [List.length_cons] at h
    have hi : i < n := by omega
    have hm : (i + 1) % 256 = i + 1 := Nat.mod_eq_of_lt (by omega)
    have := ih (i + 1) (text.set i b) (tr ++ [Event.recv b]) (by omega)
    simp only [receive_loop, hi, if_true, hm, this]
    simp

/-- When fewer than `n` bytes are left, `receive_text` takes them all and the
port ends the run. -/
theorem receive_text_short (port : Port) (text : List Byte) (n : Nat) (bs : List Byte)
    (tr : List Event) (hn : n ≤ 255) (h : bs.length < n) :
    receive_text port text n bs tr = end_of_input port (tr ++ bs.map Event.recv) :=
  receive_loop_short port n hn bs 0 text tr (by omega)

/-- A complete request is consumed, served and answered in one pass. -/
theorem loop_body_frame {G : Type} (port : Port) (B : Backend G) (fuel : Nat)
    (L : Locals G) (f : Frame) (rest : List Byte) (tr : List Event)
    (hB : Fits B) (hL : L.Sized B) (hf : f.Valid B) (hfuel : TEXT_LENGTH B + 1 < fuel) :
    loop_body port B fuel L (f.bytes ++ rest) tr
      = .ret (L.after B f, decide (port = .elmo)) rest
          (tr ++ frame_trace B L.ctx L.ciphertext f) := by
  obtain ⟨hK, hI, hT⟩ := hB
  obtain ⟨hLc, hLx, hLk, hLi⟩ := hL
  obtain ⟨hk, hi, hp⟩ := hf
  have hout : (B.serve L.ctx L.ciphertext f).2.length = TEXT_LENGTH B := by
    unfold Backend.serve
    rw [B.encrypt_length, hLx]
  unfold loop_body
  simp only [Frame.bytes, List.cons_append, List.append_assoc]
  rw [receive_start, Res.bind_ret]
  simp only [List.headD_cons, ne_eq, not_true_eq_false, if_false]
  rw [← hk, receive_text_ok port L.key f.key _ _ (by omega) (by omega), Res.bind_ret]
  rw [← hi, receive_text_ok port L.iv f.iv _ _ (by omega) (by omega), Res.bind_ret]
  rw [← hp, receive_text_ok port L.cleartext f.plaintext _ _ (by omega) (by omega),
    Res.bind_ret]
  have h1 := send_text_ok fuel [START_BYTE]
  simp only [List.length_singleton] at h1
  rw [hp, h1 _ (by omega) (by omega)]
  simp only []
  have h2 := send_text_ok fuel (B.serve L.ctx L.ciphertext f).2
  rw [hout] at h2
  unfold Backend.serve at h2
  rw [h2 _ hT (by omega)]
  simp [frame_trace, window, response, Backend.serve, Locals.after, Frame.bytes]

/-- A request cut short after its marker: every byte of it is taken, nothing
else happens, and the port ends the run. -/
theorem loop_body_partial {G : Type} (port : Port) (B : Backend G) (fuel : Nat)
    (L : Locals G) (part : List Byte) (tr : List Event)
    (hB : Fits B) (hL : L.Sized B)
    (hp : part.length < KEY_LENGTH B + IV_LENGTH B + TEXT_LENGTH B) :
    loop_body port B fuel L (START_BYTE :: part) tr
      = end_of_input port (tr ++ (START_BYTE :: part).map Event.recv) := by
  obtain ⟨hK, hI, hT⟩ := hB
  obtain ⟨hLc, hLx, hLk, hLi⟩ := hL
  unfold loop_body
  rw [receive_start, Res.bind_ret]
  simp only [List.headD_cons, ne_eq, not_true_eq_false, if_false]
  by_cases h1 : part.length < KEY_LENGTH B
  · rw [receive_text_short port L.key _ part _ hK h1, end_of_input_bind]
    simp
  · obtain ⟨k, p2, rfl, hk⟩ : ∃ k p2, part = k ++ p2 ∧ k.length = KEY_LENGTH B :=
      ⟨part.take (KEY_LENGTH B), part.drop (KEY_LENGTH B), by simp,
        by simp [List.length_take]; omega⟩
    simp only [List.length_append] at hp h1
    rw [← hk, receive_text_ok port L.key k _ _ (by omega) (by omega), Res.bind_ret]
    by_cases h2 : p2.length < IV_LENGTH B
    · rw [receive_text_short port L.iv _ p2 _ hI h2, end_of_input_bind]
      simp
    · obtain ⟨v, p3, rfl, hv⟩ : ∃ v p3, p2 = v ++ p3 ∧ v.length = IV_LENGTH B :=
        ⟨p2.take (IV_LENGTH B), p2.drop (IV_LENGTH B), by simp,
          by simp [List.length_take]; omega⟩
      simp only [List.length_append] at hp h2
      rw [← hv, receive_text_ok port L.iv v _ _ (by omega) (by omega), Res.bind_ret]
      rw [receive_text_short port L.cleartext _ p3 _ hT (by omega), end_of_input_bind]
      simp

/-! ## The loop over several passes -/

theorem Locals.skip_sized {G : Type} (B : Backend G) (noise : List Byte) :
    ∀ (L : Locals G), L.Sized B → (L.skip noise).Sized B := by
  induction noise with
  | nil => intro L h; exact h
  | cons b bs ih => intro L h; exact ih _ h

theorem Locals.skip_ctx {G : Type} (noise : List Byte) :
    ∀ (L : Locals G), (L.skip noise).ctx = L.ctx ∧
      (L.skip noise).ciphertext = L.ciphertext := by
  induction noise with
  | nil => intro L; exact ⟨rfl, rfl⟩
  | cons b bs ih => intro L; exact ih _

theorem Locals.after_sized {G : Type} (B : Backend G) (L : Locals G) (f : Frame)
    (hL : L.Sized B) (hf : f.Valid B) : (L.after B f).Sized B := by
  obtain ⟨hLc, hLx, hLk, hLi⟩ := hL
  obtain ⟨hk, hi, hp⟩ := hf
  refine ⟨hp, ?_, hk, hi⟩
  show (B.serve L.ctx L.ciphertext f).2.length = TEXT_LENGTH B
  unfold Backend.serve
  rw [B.encrypt_length, hLx]

theorem Locals.after_all_sized {G : Type} (B : Backend G) (fs : List Frame) :
    ∀ (L : Locals G), L.Sized B → (∀ f ∈ fs, f.Valid B) → (L.after_all B fs).Sized B := by
  induction fs with
  | nil => intro L h _; exact h
  | cons f fs ih =>
    intro L h hv
    exact ih _ (Locals.after_sized B L f h (hv f (List.mem_cons_self _ _)))
      (fun g hg => hv g (List.mem_cons_of_mem _ hg))

theorem initial_locals_sized {G : Type} (B : Backend G) (J : Junk G) :
    (initial_locals B J).Sized B := by
  simp [initial_locals, Locals.Sized]

/-- Bytes other than the marker cost one pass each and leave only receives. -/
theorem main_loop_noise {G : Type} (port : Port) (B : Backend G) (noise : List Byte) :
    ∀ (fuel : Nat) (L : Locals G) (rest : List Byte) (tr : List Event),
    (∀ b ∈ noise, b ≠ START_BYTE) →
    main_loop port B (fuel + noise.length) L (noise ++ rest) tr
      = main_loop port B fuel (L.skip noise) rest (tr ++ noise.map Event.recv) := by
  induction noise with
  | nil => intro fuel L rest tr _; simp [Locals.skip]
  | cons b bs ih =>
    intro fuel L rest tr h
    have hb : b ≠ START_BYTE := h b (List.mem_cons_self _ _)
    have := ih fuel { L with start := b } rest (tr ++ [Event.recv b])
      (fun c hc => h c (List.mem_cons_of_mem _ hc))
    simp only [List.length_cons, ← Nat.add_assoc, List.cons_append, main_loop,
      loop_body_noise port B _ L b _ tr hb, Res.bind_ret, Bool.false_eq_true, if_false]
    refine Eq.trans this ?_
    simp [Locals.skip]

/-- A complete request costs one pass; in single-shot mode the loop then ends. -/
theorem main_loop_frame {G : Type} (port : Port) (B : Backend G) (fuel : Nat)
    (L : Locals G) (f : Frame) (rest : List Byte) (tr : List Event)
    (hB : Fits B) (hL : L.Sized B) (hf : f.Valid B) (hfuel : TEXT_LENGTH B + 1 < fuel) :
    main_loop port B (fuel + 1) L (f.bytes ++ rest) tr
      = if port = .elmo then .ret () rest (tr ++ frame_trace B L.ctx L.ciphertext f)
        else main_loop port B fuel (L.after B f) rest
          (tr ++ frame_trace B L.ctx L.ciphertext f) := by
  simp only [main_loop, loop_body_frame port B fuel L f rest tr hB hL hf hfuel, Res.bind_ret,
    decide_eq_true_eq]

theorem frames_trace_ctx {G : Type} (B : Backend G) (fs : List Frame) :
    ∀ (L : Locals G) (f : Frame),
    frame_trace B L.ctx L.ciphertext f
        ++ frames_trace B (L.after B f).ctx (L.after B f).ciphertext fs
      = frames_trace B L.ctx L.ciphertext (f :: fs) := by
  intro L f
  rfl

/-- Back-to-back requests in looping mode cost one pass each. -/
theorem main_loop_frames {G : Type} (port : Port) (B : Backend G) (hport : port ≠ .elmo)
    (hB : Fits B) (fs : List Frame) :
    ∀ (fuel : Nat) (L : Locals G) (rest : List Byte) (tr : List Event),
    L.Sized B → (∀ f ∈ fs, f.Valid B) → TEXT_LENGTH B + 1 < fuel →
    main_loop port B (fuel + fs.length) L (wire fs ++ rest) tr
      = main_loop port B fuel (L.after_all B fs) rest
          (tr ++ frames_trace B L.ctx L.ciphertext fs) := by
  induction fs with
  | nil => intro fuel L rest tr _ _ _; simp [wire, Locals.after_all, frames_trace]
  | cons f fs ih =>
    intro fuel L rest tr hL hv hfuel
    have hf := hv f (List.mem_cons_self _ _)
    have h1 := main_loop_frame port B (fuel + fs.length) L f (wire fs ++ rest) tr hB hL hf
      (by omega)
    simp only [hport, if_false] at h1
    have h2 := ih fuel (L.after B f) rest (tr ++ frame_trace B L.ctx L.ciphertext f)
      (Locals.after_sized B L f hL hf) (fun g hg => hv g (List.mem_cons_of_mem _ hg)) hfuel
    simp only [List.length_cons, ← Nat.add_assoc, wire, List.append_assoc]
    rw [h1, h2, Locals.after_all, List.append_assoc, frames_trace_ctx]

/-- With nothing left to read the loop ends the way the port ends it. -/
theorem main_loop_eof {G : Type} (port : Port) (B : Backend G) (fuel : Nat)
    (L : Locals G) (tr : List Event) :
    main_loop port B (fuel + 1) L [] tr = end_of_input port tr := by
  simp only [main_loop, loop_body_eof, end_of_input_bind]

/-! ## What a trace sends and receives -/

theorem sent_append (a b : List Event) : sent (a ++ b) = sent a ++ sent b := by
  induction a with
  | nil => rfl
  | cons e a ih => cases e <;> simp [sent, ih]

theorem received_append (a b : List Event) :
    received (a ++ b) = received a ++ received b := by
  induction a with
  | nil => rfl
  | cons e a ih => cases e <;> simp [received, ih]

theorem sent_init (t : List Event) : sent (Event.init_peripherals :: t) = sent t := rfl

theorem sent_send (bs : List Byte) : sent (bs.map Event.send) = bs := by
  induction bs with
  | nil => rfl
  | cons b bs ih => simp [sent, ih]

theorem sent_recv (bs : List Byte) : sent (bs.map Event.recv) = [] := by
  induction bs with
  | nil => rfl
  | cons b bs ih => simp [sent, ih]

theorem received_recv (bs : List Byte) : received (bs.map Event.recv) = bs := by
  induction bs with
  | nil => rfl
  | cons b bs ih => simp [received, ih]

theorem received_send (bs : List Byte) : received (bs.map Event.send) = [] := by
  induction bs with
  | nil => rfl
  | cons b bs ih => simp [received, ih]

theorem tNOP_eq : tNOP = List.replicate 10 Event.nop := rfl

theorem hNOP_eq : hNOP = List.replicate 100 Event.nop := by
  simp only [hNOP, tNOP_eq, List.append_replicate_replicate]

theorem WAIT_NOP_eq : WAIT_NOP = List.replicate 500 Event.nop := by
  simp only [WAIT_NOP, hNOP_eq, List.append_replicate_replicate]

theorem sent_nops (n : Nat) : sent (List.replicate n Event.nop) = [] := by
  induction n with
  | zero => rfl
  | succ n ih => simp [List.replicate_succ, sent, ih]

theorem received_nops (n : Nat) : received (List.replicate n Event.nop) = [] := by
  induction n with
  | zero => rfl
  | succ n ih => simp [List.replicate_succ, received, ih]

theorem sent_window (f : Frame) : sent (window f) = [] := by
  simp only [window, WAIT_NOP_eq, sent_append, sent_nops]
  rfl

theorem received_window (f : Frame) : received (window f) = [] := by
  simp only [window, WAIT_NOP_eq, received_append, received_nops]
  rfl

theorem sent_frame_trace {G : Type} (B : Backend G) (g : G) (c : List Byte) (f : Frame) :
    sent (frame_trace B g c f) = response B g c f := by
  simp [frame_trace, sent_append, sent_recv, sent_window, sent_send]

theorem received_frame_trace {G : Type} (B : Backend G) (g : G) (c : List Byte)
    (f : Frame) : received (frame_trace B g c f) = f.bytes := by
  simp [frame_trace, received_append, received_recv, received_window, received_send]

theorem sent_frames_trace {G : Type} (B : Backend G) (fs : List Frame) :
    ∀ (g : G) (c : List Byte), sent (frames_trace B g c fs) = responses B g c fs := by
  induction fs with
  | nil => intro g c; rfl
  | cons f fs ih =>
    intro g c
    simp [frames_trace, responses, sent_append, sent_frame_trace, ih]

/-! ## Whole runs of `main` -/

/-- Noise, then one request, then the end of the transport. -/
theorem main_noise_frame {G : Type} (port : Port) (B : Backend G) (J : Junk G)
    (noise : List Byte) (f : Frame) (fuel : Nat)
    (hB : Fits B) (hf : f.Valid B) (hn : ∀ b ∈ noise, b ≠ START_BYTE)
    (hfuel : noise.length + TEXT_LENGTH B + 3 ≤ fuel) :
    main port B J fuel (noise ++ f.bytes)
      = finish port (Event.init_peripherals ::
          (noise.map Event.recv
            ++ frame_trace B J.ctx (List.replicate (TEXT_LENGTH B) 0) f)) := by
  obtain ⟨k, hk⟩ := Nat.exists_eq_add_of_le hfuel
  have hk2 : fuel = (k + (TEXT_LENGTH B + 2) + 1) + noise.length := by omega
  subst hk2
  have hS := Locals.skip_sized B noise _ (initial_locals_sized B J)
  have hc := Locals.skip_ctx noise (initial_locals B J)
  unfold main
  rw [main_loop_noise port B noise _ _ _ _ hn]
  have h := main_loop_frame port B (k + (TEXT_LENGTH B + 2)) _ f []
    ([Event.init_peripherals] ++ noise.map Event.recv) hB hS hf (by omega)
  rw [List.append_nil] at h
  rw [h, hc.1, hc.2]
  by_cases hp : port = .elmo
  · simp [hp, finish, Res.bind, initial_locals]
  · have : k + (TEXT_LENGTH B + 2) = (k + TEXT_LENGTH B + 1) + 1 := by omega
    rw [this, main_loop_eof]
    simp [hp, finish, end_of_input_bind, initial_locals]

/-- Back-to-back requests in looping mode, then the end of the transport. -/
theorem main_frames {G : Type} (port : Port) (B : Backend G) (J : Junk G)
    (fs : List Frame) (fuel : Nat) (hport : port ≠ .elmo)
    (hB : Fits B) (hf : ∀ f ∈ fs, f.Valid B)
    (hfuel : fs.length + TEXT_LENGTH B + 3 ≤ fuel) :
    main port B J fuel (wire fs)
      = end_of_input port (Event.init_peripherals ::
          frames_trace B J.ctx (List.replicate (TEXT_LENGTH B) 0) fs) := by
  obtain ⟨k, hk⟩ := Nat.exists_eq_add_of_le hfuel
  have hk2 : fuel = (k + 1 + TEXT_LENGTH B + 1 + 1) + fs.length := by omega
  subst hk2
  unfold main
  have h := main_loop_frames port B hport hB fs (k + 1 + TEXT_LENGTH B + 1 + 1)
    (initial_locals B J) [] [Event.init_peripherals] (initial_locals_sized B J) hf (by omega)
  rw [List.append_nil] at h
  rw [h, main_loop_eof, end_of_input_bind]
  simp [initial_locals]

theorem finish_trace_sent (port : Port) (tr : List Event) :
    sent (finish port tr).trace = sent tr := by
  unfold finish end_of_input
  cases port <;> simp [Res.trace, sent_append, sent]

/-! ## Counts of 256 and more -/

theorem receive_loop_wraps (port : Port) (n : Nat) (hn : 256 ≤ n) (input : List Byte) :
    ∀ (i : Nat) (text : List Byte) (tr : List Event), i < 256 →
    receive_loop port n input i text tr = end_of_input port (tr ++ input.map Event.recv) := by
  induction input with
  | nil =>
    intro i text tr hi
    have : i < n := by omega
    cases port <;> simp [receive_loop, end_of_input, this]
  | cons b rest ih =>
    intro i text tr hi
    have h1 : i < n := by omega
    have := ih ((i + 1) % 256) (text.set i b) (tr ++ [Event.recv b]) (Nat.mod_lt _ (by decide))
    simp only [receive_loop, h1, if_true, this]
    simp

theorem send_loop_wraps (text : List Byte) (n : Nat) (hn : 256 ≤ n) (fuel : Nat) :
    ∀ (i : Nat) (tr : List Event), i < 256 → send_loop text n fuel i tr = none := by
  induction fuel with
  | zero => intro i tr _; rfl
  | succ fuel ih =>
    intro i tr hi
    have h1 : i < n := by omega
    simp only [send_loop, h1, if_true]
    exact ih _ _ (Nat.mod_lt _ (by decide))

/-! ## Properties of the specification -/

/-- C1. For every back end whose three field lengths fit the port loops, and
every input that starts with a complete request (marker, key, iv, plaintext, of
any byte values), one pass of the loop returns, has consumed exactly the
1+KEY_LENGTH+IV_LENGTH+TEXT_LENGTH bytes of the request and nothing of what
follows, and has sent exactly 1+TEXT_LENGTH bytes: the marker, then the
ciphertext buffer that `ECRYPT_encrypt_bytes` leaves after `ECRYPT_keysetup` with
that key and `ECRYPT_ivsetup` with that iv. -/
theorem one_frame_one_response {G : Type} (port : Port) (B : Backend G) (fuel : Nat)
    (L : Locals G) (f : Frame) (rest : List Byte) (tr : List Event)
    (hB : Fits B) (hL : L.Sized B) (hf : f.Valid B) (hfuel : TEXT_LENGTH B + 1 < fuel) :
    loop_body port B fuel L (f.bytes ++ rest) tr
        = .ret (L.after B f, decide (port = .elmo)) rest
            (tr ++ frame_trace B L.ctx L.ciphertext f)
    ∧ f.bytes.length = 1 + KEY_LENGTH B + IV_LENGTH B + TEXT_LENGTH B
    ∧ received (frame_trace B L.ctx L.ciphertext f) = f.bytes
    ∧ sent (frame_trace B L.ctx L.ciphertext f)
        = START_BYTE :: (B.ECRYPT_encrypt_bytes
            (B.ECRYPT_ivsetup
              (B.ECRYPT_keysetup L.ctx f.key B.ECRYPT_MAXKEYSIZE B.ECRYPT_MAXIVSIZE) f.iv)
            f.plaintext L.ciphertext (TEXT_LENGTH B)).2
    ∧ (sent (frame_trace B L.ctx L.ciphertext f)).length = 1 + TEXT_LENGTH B := by
  refine ⟨loop_body_frame port B fuel L f rest tr hB hL hf hfuel, ?_, ?_, ?_, ?_⟩
  · obtain ⟨hk, hi, hp⟩ := hf
    simp only [Frame.bytes, List.length_cons, List.length_append, hk, hi, hp]
    omega
  · exact received_frame_trace B _ _ f
  · rw [sent_frame_trace]
    rfl
  · rw [sent_frame_trace]
    simp only [response, List.length_cons, Backend.serve, B.encrypt_length, hL.2.1]
    omega

/-- C1, at the all-zero 16-byte key, iv and plaintext with the unmasked back end
on the native port: the pass sends the marker followed by that back end's
ciphertext of the zero block under the zero key. -/
theorem one_frame_one_response_witness :
    sent (loop_body .native tinyaes_sample 18 (initial_locals tinyaes_sample zero_junk)
        (zero_frame.bytes ++ []) []).trace
      = START_BYTE :: sample_ECB_encrypt (sample_init_ctx [] zero_frame.key)
          zero_frame.plaintext := by
  have h := one_frame_one_response .native tinyaes_sample 18
    (initial_locals tinyaes_sample zero_junk) zero_frame [] []
    ⟨by decide, by decide, by decide⟩ ⟨by decide, by decide, by decide, by decide⟩
    ⟨by decide, by decide, by decide⟩ (by decide)
  rw [h.1, Res.trace, List.nil_append, h.2.2.2.1]
  decide

/-- C2. For every run of bytes none of which is the marker (the empty run
included), followed by one complete request: `main` sends exactly what it sends
for that request alone, namely the one response, and its effects are the
receives of the noise bytes followed by the effects of the request; one pass on
a noise byte consumes that byte alone, records nothing but its receive, and
returns to the head of the loop. -/
theorem noise_is_skipped {G : Type} (port : Port) (B : Backend G) (J : Junk G)
    (noise : List Byte) (f : Frame) (fuel : Nat)
    (hB : Fits B) (hf : f.Valid B) (hn : ∀ b ∈ noise, b ≠ START_BYTE)
    (hfuel : noise.length + TEXT_LENGTH B + 3 ≤ fuel) :
    main port B J fuel (noise ++ f.bytes)
        = finish port (Event.init_peripherals ::
            (noise.map Event.recv
              ++ frame_trace B J.ctx (List.replicate (TEXT_LENGTH B) 0) f))
    ∧ main port B J fuel f.bytes
        = finish port (Event.init_peripherals ::
            frame_trace B J.ctx (List.replicate (TEXT_LENGTH B) 0) f)
    ∧ sent (main port B J fuel (noise ++ f.bytes)).trace
        = sent (main port B J fuel f.bytes).trace
    ∧ sent (main port B J fuel (noise ++ f.bytes)).trace
        = response B J.ctx (List.replicate (TEXT_LENGTH B) 0) f
    ∧ ∀ (fuel1 : Nat) (L : Locals G) (b : Byte) (rest : List Byte) (tr : List Event),
        b ≠ START_BYTE →
        loop_body port B fuel1 L (b :: rest) tr
          = .ret ({ L with start := b }, false) rest (tr ++ [Event.recv b]) := by
  have h1 := main_noise_frame port B J noise f fuel hB hf hn hfuel
  have h2 := main_noise_frame port B J [] f fuel hB hf (by simp) (by simp; omega)
  simp only [List.nil_append, List.map_nil] at h2
  refine ⟨h1, h2, ?_, ?_, ?_⟩
  · rw [h1, h2, finish_trace_sent, finish_trace_sent, sent_init, sent_init, sent_append,
      sent_recv, List.nil_append]
  · rw [h1, finish_trace_sent, sent_init, sent_append, sent_recv, List.nil_append,
      sent_frame_trace]
  · intro fuel1 L b rest tr hb
    exact loop_body_noise port B fuel1 L b rest tr hb

/-- C2, at the noise byte 0x00 followed by the all-zero request: the only bytes
sent are the response to that request. -/
theorem noise_is_skipped_witness :
    sent (main .native tinyaes_sample zero_junk 20 ([0x00] ++ zero_frame.bytes)).trace
      = response tinyaes_sample zero_junk.ctx
          (List.replicate (TEXT_LENGTH tinyaes_sample) 0) zero_frame :=
  (noise_is_skipped .native tinyaes_sample zero_junk [0x00] zero_frame 20
    ⟨by decide, by decide, by decide⟩ ⟨by decide, by decide, by decide⟩
    (fun b hb => by rw [List.mem_singleton.mp hb]; decide) (by decide)).2.2.2.1

/-- C4, at the count 256.  The 8-bit counter wraps from 255 to 0 and stays
below the bound: `receive_text(text, 256)` never returns, it takes every byte
the transport holds (however many beyond 256) until the port ends the run, and
`send_text(text, 256)` returns on no amount of fuel. -/
theorem receive_send_text_at_256 :
    (∀ (port : Port) (text input : List Byte) (tr : List Event),
      receive_text port text 256 input tr
        = end_of_input port (tr ++ input.map Event.recv))
    ∧ (∀ (port : Port) (text input : List Byte) (tr : List Event) (a i : List Byte)
        (t : List Event), receive_text port text 256 input tr ≠ .ret a i t)
    ∧ (∀ (fuel : Nat) (text : List Byte) (tr : List Event),
      send_text fuel text 256 tr = none) := by
  have h : ∀ (port : Port) (text input : List Byte) (tr : List Event),
      receive_text port text 256 input tr
        = end_of_input port (tr ++ input.map Event.recv) :=
    fun port text input tr =>
      receive_loop_wraps port 256 (Nat.le_refl _) input 0 text tr (by decide)
  refine ⟨h, ?_, fun fuel text tr =>
    send_loop_wraps text 256 (Nat.le_refl _) fuel 0 tr (by decide)⟩
  intro port text input tr a i t e
  rw [h] at e
  cases port <;> simp [end_of_input] at e

/-! ## Several requests -/

theorem range_map_getD (src : List Byte) : ∀ (n : Nat), n ≤ src.length →
    (List.range n).map (fun j => src.getD j 0) = src.take n := by
  intro n hn
  apply List.ext_getElem
  · simp [List.length_take, Nat.min_eq_left hn]
  · intro i h1 h2
    simp only [List.length_map, List.length_range] at h1
    simp [List.getD_eq_getElem?_getD, List.getElem?_eq_getElem (Nat.lt_of_lt_of_le h1 hn)]

/-- Copying `n` bytes into a buffer of `n` bytes leaves the first `n` bytes of the source. -/
theorem copy_bytes_eq (dst src : List Byte) (n : Nat) (hd : dst.length = n)
    (hs : n ≤ src.length) : copy_bytes dst src n = src.take n := by
  unfold copy_bytes
  rw [store_from_zero _ dst (by simp [hd]), range_map_getD src n hs]

theorem serve_length {G : Type} (B : Backend G) (g : G) (c : List Byte) (f : Frame) :
    (B.serve g c f).2.length = c.length := by
  unfold Backend.serve
  exact B.encrypt_length _ _ _ _

theorem functional_memoryless {G : Type} (B : Backend G) (h : B.Functional) :
    B.Memoryless := by
  intro g g1 c c1 f _ hc hc1
  unfold Backend.serve
  rw [h.1 g g1, h.2 _ _ c c1 hc hc1]

/-- With a memoryless back end, each response in a sequence is the response the
request gets from any other state. -/
theorem responses_memoryless {G : Type} (B : Backend G) (hM : B.Memoryless) (g0 : G)
    (c0 : List Byte) (hc0 : c0.length = TEXT_LENGTH B) (fs : List Frame) :
    ∀ (g : G) (c : List Byte), c.length = TEXT_LENGTH B → (∀ f ∈ fs, f.Valid B) →
    responses B g c fs = (fs.map fun f => response B g0 c0 f).flatten := by
  induction fs with
  | nil => intro g c _ _; rfl
  | cons f fs ih =>
    intro g c hc hv
    have hf := hv f (List.mem_cons_self _ _)
    have h1 : response B g c f = response B g0 c0 f := by
      unfold response
      rw [hM g g0 c c0 f hf hc hc0]
    have h2 := ih (B.serve g c f).1 (B.serve g c f).2 (by rw [serve_length, hc])
      (fun x hx => hv x (List.mem_cons_of_mem _ hx))
    simp only [responses, List.map_cons, List.flatten_cons, h1, h2]

theorem end_of_input_trace {α : Type} (port : Port) (tr : List Event) :
    (end_of_input port tr : Res α).trace = tr := by
  cases port <;> rfl

theorem main_loop_partial {G : Type} (port : Port) (B : Backend G) (fuel : Nat)
    (L : Locals G) (part : List Byte) (tr : List Event)
    (hB : Fits B) (hL : L.Sized B)
    (hp : part.length < KEY_LENGTH B + IV_LENGTH B + TEXT_LENGTH B) :
    main_loop port B (fuel + 1) L (START_BYTE :: part) tr
      = end_of_input port (tr ++ (START_BYTE :: part).map Event.recv) := by
  simp only [main_loop, loop_body_partial port B fuel L part tr hB hL hp, end_of_input_bind]

/-- C7. On the native port, when the input ends inside a request (after its
marker, before all of key, iv and plaintext have arrived), whatever complete
requests came before: the process ends through `exit(0)` with the input used up;
after the effects of the complete requests the only effects are the receives of
the bytes of the partial request (no key setup, iv setup, encrypt, trigger or
send); and the bytes sent are exactly the responses to the complete requests. -/
theorem truncated_frame_exits {G : Type} (B : Backend G) (J : Junk G) (fs : List Frame)
    (part : List Byte) (fuel : Nat) (hB : Fits B) (hf : ∀ f ∈ fs, f.Valid B)
    (hp : part.length < KEY_LENGTH B + IV_LENGTH B + TEXT_LENGTH B)
    (hfuel : fs.length + TEXT_LENGTH B + 3 ≤ fuel) :
    main .native B J fuel (wire fs ++ START_BYTE :: part)
        = .exited 0 [] (Event.init_peripherals ::
            (frames_trace B J.ctx (List.replicate (TEXT_LENGTH B) 0) fs
              ++ (START_BYTE :: part).map Event.recv))
    ∧ sent (main .native B J fuel (wire fs ++ START_BYTE :: part)).trace
        = responses B J.ctx (List.replicate (TEXT_LENGTH B) 0) fs := by
  obtain ⟨k, hk⟩ := Nat.exists_eq_add_of_le hfuel
  have hk2 : fuel = (k + 1 + TEXT_LENGTH B + 1 + 1) + fs.length := by omega
  subst hk2
  have h := main_loop_frames .native B (by decide) hB fs (k + 1 + TEXT_LENGTH B + 1 + 1)
    (initial_locals B J) (START_BYTE :: part) [Event.init_peripherals]
    (initial_locals_sized B J) hf (by omega)
  have hS := Locals.after_all_sized B fs _ (initial_locals_sized B J) hf
  have e : main .native B J (k + 1 + TEXT_LENGTH B + 1 + 1 + fs.length)
        (wire fs ++ START_BYTE :: part)
      = .exited 0 [] (Event.init_peripherals ::
          (frames_trace B J.ctx (List.replicate (TEXT_LENGTH B) 0) fs
            ++ (START_BYTE :: part).map Event.recv)) := by
    unfold main
    rw [h, main_loop_partial .native B _ _ part _ hB hS hp, end_of_input_bind]
    simp [initial_locals, end_of_input]
  refine ⟨e, ?_⟩
  rw [e, Res.trace, sent_init, sent_append, sent_recv, List.append_nil, sent_frames_trace]

/-- C7, at the unmasked back end with one complete all-zero request followed by
a marker and three more bytes. -/
theorem truncated_frame_exits_witness :
    sent (main .native tinyaes_sample zero_junk 20
        (wire [zero_frame] ++ START_BYTE :: [1, 2, 3])).trace
      = responses tinyaes_sample zero_junk.ctx
          (List.replicate (TEXT_LENGTH tinyaes_sample) 0) [zero_frame] :=
  (truncated_frame_exits tinyaes_sample zero_junk [zero_frame] [1, 2, 3] 20
    ⟨by decide, by decide, by decide⟩
    (fun f hf => by rw [List.mem_singleton.mp hf]; exact ⟨by decide, by decide, by decide⟩)
    (by decide) (by decide)).2

/-- C5. In looping mode, for every sequence of complete requests sent back to
back to a memoryless back end: the run ends only when the transport is empty,
its effects are those of the requests in order, and the bytes sent are the
concatenation, in request order, of what `main` sends for each request when
that request is sent alone as the first one. -/
theorem responses_in_request_order {G : Type} (port : Port) (B : Backend G) (J : Junk G)
    (fs : List Frame) (fuel : Nat) (hport : port ≠ .elmo) (hB : Fits B)
    (hf : ∀ f ∈ fs, f.Valid B) (hM : B.Memoryless)
    (hfuel : fs.length + TEXT_LENGTH B + 3 ≤ fuel) :
    main port B J fuel (wire fs)
        = end_of_input port (Event.init_peripherals ::
            frames_trace B J.ctx (List.replicate (TEXT_LENGTH B) 0) fs)
    ∧ sent (main port B J fuel (wire fs)).trace
        = (fs.map fun f => sent (main port B J fuel f.bytes).trace).flatten
    ∧ (sent (main port B J fuel (wire fs)).trace).length = fs.length * (1 + TEXT_LENGTH B) := by
  have h := main_frames port B J fs fuel hport hB hf hfuel
  have alone : ∀ f ∈ fs, sent (main port B J fuel f.bytes).trace
      = response B J.ctx (List.replicate (TEXT_LENGTH B) 0) f := by
    intro f hfm
    have h1 := main_noise_frame port B J [] f fuel hB (hf f hfm) (by simp)
      (by simp only [List.length_nil]; omega)
    simp only [List.nil_append, List.map_nil] at h1
    rw [h1, finish_trace_sent, sent_init, sent_frame_trace]
  have hall : sent (main port B J fuel (wire fs)).trace
      = (fs.map fun f => sent (main port B J fuel f.bytes).trace).flatten := by
    rw [h, end_of_input_trace, sent_init, sent_frames_trace,
      responses_memoryless B hM J.ctx (List.replicate (TEXT_LENGTH B) 0) (by simp) fs
        J.ctx _ (by simp) hf]
    congr 1
    apply List.map_congr_left
    intro f hfm
    exact (alone f hfm).symm
  refine ⟨h, hall, ?_⟩
  rw [hall, List.length_flatten, List.map_map]
  have : ∀ f ∈ fs, (List.length ∘ fun f => sent (main port B J fuel f.bytes).trace) f
      = 1 + TEXT_LENGTH B := by
    intro f hfm
    simp only [Function.comp, alone f hfm, response, List.length_cons, serve_length,
      List.length_replicate]
    omega
  rw [List.map_congr_left this]
  simp [Nat.mul_comm]

theorem tinyaes_memoryless {C : Type} (mk mi : Nat) (init : C → List Byte → C)
    (enc : C → List Byte → List Byte) (hinit : ∀ c c1 key, init c key = init c1 key) :
    (tinyaes 128 mk mi init enc).Memoryless := by
  intro g g1 c c1 f hf hc hc1
  have e : TEXT_LENGTH (tinyaes 128 mk mi init enc) = 16 := by simp [TEXT_LENGTH, tinyaes]
  have hp : f.plaintext.length = 16 := by rw [← e]; exact hf.2.2
  have hc16 : c.length = 16 := by rw [← e]; exact hc
  have hc116 : c1.length = 16 := by rw [← e]; exact hc1
  simp only [Backend.serve, tinyaes]
  rw [copy_bytes_eq c f.plaintext 16 hc16 (by omega),
    copy_bytes_eq c1 f.plaintext 16 hc116 (by omega), hinit g g1]

/-- C5, at the unmasked back end with the all-zero request followed by a second
request. -/
theorem responses_in_request_order_witness :
    sent (main .native tinyaes_sample zero_junk 30 (wire [zero_frame, other_frame])).trace
      = ([zero_frame, other_frame].map fun f =>
          sent (main .native tinyaes_sample zero_junk 30 f.bytes).trace).flatten :=
  (responses_in_request_order .native tinyaes_sample zero_junk [zero_frame, other_frame] 30
    (by decide) ⟨by decide, by decide, by decide⟩
    (fun f hf => by
      simp only [List.mem_cons, List.mem_singleton, List.not_mem_nil, or_false] at hf
      rcases hf with rfl | rfl <;> exact ⟨by decide, by decide, by decide⟩)
    (tinyaes_memoryless 128 128 sample_init_ctx sample_ECB_encrypt (fun _ _ _ => rfl))
    (by decide)).2.1

theorem generated_responses {G : Type} (bl mk mi : Nat) (gc : G → G) (c : List Byte)
    (fs : List Frame) : ∀ (g : G),
    responses (generated bl mk mi gc) g c fs
      = (List.replicate fs.length (START_BYTE :: c)).flatten := by
  induction fs with
  | nil => intro g; rfl
  | cons f fs ih =>
    intro g
    have h := ih (gc g)
    simp only [responses, response, Backend.serve, generated, List.length_cons,
      List.replicate_succ, List.flatten_cons, List.cons_append] at h ⊢
    rw [h]

theorem generated_after_all {G : Type} (bl mk mi : Nat) (gc : G → G) (fs : List Frame) :
    ∀ (L : Locals G),
    (L.after_all (generated bl mk mi gc) fs).ciphertext = L.ciphertext := by
  induction fs with
  | nil => intro L; rfl
  | cons f fs ih =>
    intro L
    rw [Locals.after_all, ih]
    rfl

/-- C10. With the synthetic back end, whose `ECRYPT_encrypt_bytes` returns the
ciphertext buffer as it got it: in looping mode, for every sequence of complete
requests of any content, the bytes sent are one marker followed by TEXT_LENGTH
zero bytes per request, and the ciphertext buffer is all-zero after every
request; on every port a single request gets the marker followed by TEXT_LENGTH
zero bytes. -/
theorem generated_sends_zeros {G : Type} (port : Port) (bl mk mi : Nat) (gc : G → G)
    (J : Junk G) (fs : List Frame) (fuel : Nat) (hport : port ≠ .elmo)
    (hB : Fits (generated bl mk mi gc)) (hf : ∀ f ∈ fs, f.Valid (generated bl mk mi gc))
    (hfuel : fs.length + TEXT_LENGTH (generated bl mk mi gc) + 3 ≤ fuel) :
    (∀ (g : G) (p c : List Byte) (n : Nat),
        ((generated bl mk mi gc).ECRYPT_encrypt_bytes g p c n).2 = c)
    ∧ sent (main port (generated bl mk mi gc) J fuel (wire fs)).trace
        = (List.replicate fs.length
            (START_BYTE :: List.replicate (TEXT_LENGTH (generated bl mk mi gc)) 0)).flatten
    ∧ (∀ (k : Nat), ((initial_locals (generated bl mk mi gc) J).after_all
          (generated bl mk mi gc) (fs.take k)).ciphertext
        = List.replicate (TEXT_LENGTH (generated bl mk mi gc)) 0)
    ∧ (∀ (port1 : Port) (f : Frame), f.Valid (generated bl mk mi gc) →
        sent (main port1 (generated bl mk mi gc) J fuel f.bytes).trace
          = START_BYTE :: List.replicate (TEXT_LENGTH (generated bl mk mi gc)) 0) := by
  refine ⟨fun _ _ _ _ => rfl, ?_, ?_, ?_⟩
  · rw [main_frames port _ J fs fuel hport hB hf hfuel, end_of_input_trace, sent_init,
      sent_frames_trace, generated_responses]
  · intro k
    rw [generated_after_all]
    rfl
  · intro port1 f hv
    have h1 := main_noise_frame port1 (generated bl mk mi gc) J [] f fuel hB hv (by simp)
      (by simp only [List.length_nil]; omega)
    simp only [List.nil_append, List.map_nil] at h1
    rw [h1, finish_trace_sent, sent_init, sent_frame_trace]
    rfl

/-- C10, at the synthetic back end with two requests of different content on
the native port. -/
theorem generated_sends_zeros_witness :
    sent (main .native generated_sample counter_junk 30
        (wire [other_frame, zero_frame])).trace
      = (List.replicate 2 (START_BYTE :: List.replicate 16 0)).flatten :=
  (generated_sends_zeros .native 128 128 128 (fun g => g + 1) counter_junk
    [other_frame, zero_frame] 30 (by decide) ⟨by decide, by decide, by decide⟩
    (fun f hf => by
      simp only [List.mem_cons, List.mem_singleton, List.not_mem_nil, or_false] at hf
      rcases hf with rfl | rfl <;> exact ⟨by decide, by decide, by decide⟩)
    (by decide)).2.1

/-! ## The trigger discipline -/

theorem trigger_after_append (a b : List Event) : ∀ (lvl : Bool),
    trigger_after lvl (a ++ b) = trigger_after (trigger_after lvl a) b := by
  induction a with
  | nil => intro lvl; rfl
  | cons e a ih => intro lvl; cases e <;> simp [trigger_after, ih]

theorem disciplined_append (a b : List Event) : ∀ (lvl : Bool),
    disciplined lvl (a ++ b)
      = (disciplined lvl a && disciplined (trigger_after lvl a) b) := by
  induction a with
  | nil => intro lvl; simp [disciplined, trigger_after]
  | cons e a ih =>
    intro lvl
    cases e <;> simp [disciplined, trigger_after, ih, Bool.and_assoc]

theorem trigger_after_recv (bs : List Byte) (lvl : Bool) :
    trigger_after lvl (bs.map Event.recv) = lvl := by
  induction bs with
  | nil => rfl
  | cons b bs ih => simp [trigger_after, ih]

theorem trigger_after_send (bs : List Byte) (lvl : Bool) :
    trigger_after lvl (bs.map Event.send) = lvl := by
  induction bs with
  | nil => rfl
  | cons b bs ih => simp [trigger_after, ih]

theorem trigger_after_nops (n : Nat) (lvl : Bool) :
    trigger_after lvl (List.replicate n Event.nop) = lvl := by
  induction n with
  | zero => rfl
  | succ n ih => simp [List.replicate_succ, trigger_after, ih]

theorem disciplined_recv (bs : List Byte) : disciplined false (bs.map Event.recv) = true := by
  induction bs with
  | nil => rfl
  | cons b bs ih => simp [disciplined, ih]

theorem disciplined_send (bs : List Byte) : disciplined false (bs.map Event.send) = true := by
  induction bs with
  | nil => rfl
  | cons b bs ih => simp [disciplined, ih]

theorem disciplined_nops (n : Nat) (lvl : Bool) :
    disciplined lvl (List.replicate n Event.nop) = true := by
  induction n with
  | zero => rfl
  | succ n ih => simp [List.replicate_succ, disciplined, ih]

theorem window_eq (f : Frame) :
    window f = [Event.keysetup f.key, Event.ivsetup f.iv, Event.set_trigger]
      ++ (List.replicate 500 Event.nop ++ ([Event.encrypt f.plaintext]
      ++ (List.replicate 500 Event.nop ++ [Event.clear_trigger]))) := by
  simp only [window, WAIT_NOP_eq, List.append_assoc]

theorem trigger_after_window (f : Frame) : trigger_after false (window f) = false := by
  rw [window_eq]
  simp only [trigger_after_append, trigger_after_nops]
  rfl

theorem disciplined_window (f : Frame) : disciplined false (window f) = true := by
  rw [window_eq]
  simp only [disciplined_append, trigger_after_append, trigger_after_nops, disciplined_nops]
  rfl

theorem mem_recv (bs : List Byte) : Event.program_end ∉ bs.map Event.recv := by
  simp

theorem mem_send (bs : List Byte) : Event.program_end ∉ bs.map Event.send := by
  simp

theorem mem_window (f : Frame) : Event.program_end ∉ window f := by
  rw [window_eq]
  simp only [List.mem_append, List.mem_replicate, List.mem_cons, List.mem_singleton,
    List.not_mem_nil, reduceCtorEq, and_false, or_self, not_false_eq_true, false_and]

theorem calm_nil : Calm [] := ⟨rfl, rfl, by simp⟩

theorem calm_recv (tr : List Event) (bs : List Byte) (h : Calm tr) :
    Calm (tr ++ bs.map Event.recv) := by
  obtain ⟨h1, h2, h3⟩ := h
  refine ⟨?_, ?_, ?_⟩
  · rw [disciplined_append, h1, h2, disciplined_recv]; rfl
  · rw [trigger_after_append, h2, trigger_after_recv]
  · simp only [List.mem_append, not_or]; exact ⟨h3, mem_recv bs⟩

theorem calm_send (tr : List Event) (bs : List Byte) (h : Calm tr) :
    Calm (tr ++ bs.map Event.send) := by
  obtain ⟨h1, h2, h3⟩ := h
  refine ⟨?_, ?_, ?_⟩
  · rw [disciplined_append, h1, h2, disciplined_send]; rfl
  · rw [trigger_after_append, h2, trigger_after_send]
  · simp only [List.mem_append, not_or]; exact ⟨h3, mem_send bs⟩

theorem calm_window (tr : List Event) (f : Frame) (h : Calm tr) : Calm (tr ++ window f) := by
  obtain ⟨h1, h2, h3⟩ := h
  refine ⟨?_, ?_, ?_⟩
  · rw [disciplined_append, h1, h2, disciplined_window]; rfl
  · rw [trigger_after_append, h2, trigger_after_window]
  · simp only [List.mem_append, not_or]; exact ⟨h3, mem_window f⟩

theorem calm_frame_trace {G : Type} (B : Backend G) (g : G) (c : List Byte) (f : Frame)
    (tr : List Event) (h : Calm tr) : Calm (tr ++ frame_trace B g c f) := by
  unfold frame_trace
  rw [← List.append_assoc, ← List.append_assoc]
  exact calm_send _ _ (calm_window _ _ (calm_recv _ _ h))

/-! ## Every run keeps the discipline -/

theorem receive_loop_calm (port : Port) (n : Nat) (input : List Byte) :
    ∀ (i : Nat) (text : List Byte) (tr : List Event), Calm tr →
    Calm (receive_loop port n input i text tr).trace := by
  induction input with
  | nil =>
    intro i text tr h
    unfold receive_loop
    split
    · cases port <;> exact h
    · exact h
  | cons b rest ih =>
    intro i text tr h
    unfold receive_loop
    split
    · exact ih _ _ _ (calm_recv tr [b] h)
    · exact h

theorem send_loop_calm (text : List Byte) (n : Nat) (fuel : Nat) :
    ∀ (i : Nat) (tr tr1 : List Event), Calm tr → send_loop text n fuel i tr = some tr1 →
    Calm tr1 := by
  induction fuel with
  | zero => intro i tr tr1 _ h; simp [send_loop] at h
  | succ fuel ih =>
    intro i tr tr1 hc h
    unfold send_loop at h
    split at h
    · exact ih _ _ _ (calm_send tr [text.getD i 0] hc) h
    · cases h; exact hc

theorem bind_calm {α β : Type} (r : Res α) (f : α → List Byte → List Event → Res β)
    (h0 : Calm r.trace) (h : ∀ a i t, r = .ret a i t → Calm (f a i t).trace) :
    Calm (r.bind f).trace := by
  cases r with
  | ret a i t => exact h a i t rfl
  | exited c i t => exact h0
  | starved t => exact h0
  | diverge => exact calm_nil

theorem ret_calm {α : Type} (r : Res α) (a : α) (i : List Byte) (t : List Event)
    (h0 : Calm r.trace) (h : r = .ret a i t) : Calm t := by
  subst h; exact h0

theorem loop_body_calm {G : Type} (port : Port) (B : Backend G) (fuel : Nat)
    (L : Locals G) (input : List Byte) (tr : List Event) (h : Calm tr) :
    Calm (loop_body port B fuel L input tr).trace := by
  unfold loop_body
  have c0 := receive_loop_calm port 1 input 0 [L.start] tr h
  refine bind_calm _ _ c0 ?_
  intro s i1 t1 e1
  have c1 : Calm t1 := ret_calm _ _ _ _ c0 e1
  simp only []
  split
  · exact c1
  · have c2 := receive_loop_calm port (KEY_LENGTH B) i1 0 L.key t1 c1
    refine bind_calm _ _ c2 ?_
    intro key i2 t2 e2
    have c2r : Calm t2 := ret_calm _ _ _ _ c2 e2
    have c3 := receive_loop_calm port (IV_LENGTH B) i2 0 L.iv t2 c2r
    refine bind_calm _ _ c3 ?_
    intro iv i3 t3 e3
    have c3r : Calm t3 := ret_calm _ _ _ _ c3 e3
    have c4 := receive_loop_calm port (TEXT_LENGTH B) i3 0 L.cleartext t3 c3r
    refine bind_calm _ _ c4 ?_
    intro pt i4 t4 e4
    have c4r : Calm t4 := ret_calm _ _ _ _ c4 e4
    have cw := calm_window t4 { key := key, iv := iv, plaintext := pt } c4r
    have ew : t4 ++ window { key := key, iv := iv, plaintext := pt }
        = t4 ++ [Event.keysetup key] ++ [Event.ivsetup iv] ++ [Event.set_trigger] ++ WAIT_NOP
          ++ [Event.encrypt pt] ++ WAIT_NOP ++ [Event.clear_trigger] := by
      simp only [window, List.append_assoc]
      rfl
    rw [ew] at cw
    split
    · exact calm_nil
    · rename_i t5 e5
      have c5 := send_loop_calm _ _ _ _ _ _ cw e5
      split
      · exact calm_nil
      · rename_i t6 e6
        exact send_loop_calm _ _ _ _ _ _ c5 e6

theorem main_loop_calm {G : Type} (port : Port) (B : Backend G) (fuel : Nat) :
    ∀ (L : Locals G) (input : List Byte) (tr : List Event), Calm tr →
    Calm (main_loop port B fuel L input tr).trace := by
  induction fuel with
  | zero => intro L input tr _; exact calm_nil
  | succ fuel ih =>
    intro L input tr h
    unfold main_loop
    have c0 := loop_body_calm port B fuel L input tr h
    refine bind_calm _ _ c0 ?_
    intro r i t e
    have c1 : Calm t := ret_calm _ _ _ _ c0 e
    split
    · exact c1
    · exact ih _ _ _ c1

/-- Only the single-shot build leaves the loop. -/
theorem loop_body_flag {G : Type} (port : Port) (B : Backend G) (fuel : Nat)
    (L : Locals G) (input : List Byte) (tr : List Event) (r : Locals G × Bool)
    (i : List Byte) (t : List Event) (h : loop_body port B fuel L input tr = .ret r i t)
    (hr : r.2 = true) : port = .elmo := by
  unfold loop_body at h
  cases h1 : receive_text port [L.start] 1 input tr with
  | ret s i1 t1 =>
    rw [h1] at h
    simp only [Res.bind] at h
    split at h
    · cases h; simp at hr
    · cases h2 : receive_text port L.key (KEY_LENGTH B) i1 t1 with
      | ret key i2 t2 =>
        rw [h2] at h
        simp only [Res.bind] at h
        cases h3 : receive_text port L.iv (IV_LENGTH B) i2 t2 with
        | ret iv i3 t3 =>
          rw [h3] at h
          simp only [Res.bind] at h
          cases h4 : receive_text port L.cleartext (TEXT_LENGTH B) i3 t3 with
          | ret pt i4 t4 =>
            rw [h4] at h
            simp only [Res.bind] at h
            split at h
            · cases h
            · split at h
              · cases h
              · cases h
                simpa using hr
          | exited c i t => rw [h4] at h; simp [Res.bind] at h
          | starved t => rw [h4] at h; simp [Res.bind] at h
          | diverge => rw [h4] at h; simp [Res.bind] at h
        | exited c i t => rw [h3] at h; simp [Res.bind] at h
        | starved t => rw [h3] at h; simp [Res.bind] at h
        | diverge => rw [h3] at h; simp [Res.bind] at h
      | exited c i t => rw [h2] at h; simp [Res.bind] at h
      | starved t => rw [h2] at h; simp [Res.bind] at h
      | diverge => rw [h2] at h; simp [Res.bind] at h
  | exited c i t => rw [h1] at h; simp [Res.bind] at h
  | starved t => rw [h1] at h; simp [Res.bind] at h
  | diverge => rw [h1] at h; simp [Res.bind] at h

/-- In looping mode the loop never returns. -/
theorem main_loop_no_return {G : Type} (port : Port) (B : Backend G) (hport : port ≠ .elmo)
    (fuel : Nat) : ∀ (L : Locals G) (input : List Byte) (tr : List Event) (i : List Byte)
    (t : List Event), main_loop port B fuel L input tr ≠ .ret () i t := by
  induction fuel with
  | zero => intro L input tr i t h; simp [main_loop] at h
  | succ fuel ih =>
    intro L input tr i t h
    unfold main_loop at h
    cases h1 : loop_body port B fuel L input tr with
    | ret r i1 t1 =>
      rw [h1] at h
      simp only [Res.bind] at h
      split at h
      · rename_i hr
        exact hport (loop_body_flag port B fuel L input tr r i1 t1 h1 hr)
      · exact ih _ _ _ _ _ h
    | exited c i t => rw [h1] at h; simp [Res.bind] at h
    | starved t => rw [h1] at h; simp [Res.bind] at h
    | diverge => rw [h1] at h; simp [Res.bind] at h

theorem calm_init : Calm [Event.init_peripherals] := ⟨rfl, rfl, by simp⟩

theorem main_disciplined {G : Type} (port : Port) (B : Backend G) (J : Junk G) (fuel : Nat)
    (input : List Byte) : disciplined false (main port B J fuel input).trace = true := by
  unfold main
  have c := main_loop_calm port B fuel (initial_locals B J) input [Event.init_peripherals]
    calm_init
  cases h : main_loop port B fuel (initial_locals B J) input [Event.init_peripherals] with
  | ret a i t =>
    rw [h] at c
    simp only [Res.bind, Res.trace] at c ⊢
    rw [disciplined_append, c.1, c.2.1]
    rfl
  | exited code i t => rw [h] at c; exact c.1
  | starved t => rw [h] at c; exact c.1
  | diverge => rfl

/-- C3. For every processed request: the pass returns with the effects of the
request, which are its receives, then exactly `ECRYPT_keysetup`, `ECRYPT_ivsetup`,
`set_trigger`, the padding, `ECRYPT_encrypt_bytes`, the padding, `clear_trigger`,
then its sends; this sequence keeps the trigger discipline (receives, sends and
setup calls only while the trigger is cleared, the encrypt call only while it is
asserted) and ends with the trigger cleared.  Moreover every pass of the loop,
on any input, that starts calm leaves a calm trace, and the trace of every run
of `main` keeps the discipline. -/
theorem trigger_brackets_encrypt {G : Type} (port : Port) (B : Backend G) (fuel : Nat)
    (L : Locals G) (f : Frame) (rest : List Byte) (tr : List Event)
    (hB : Fits B) (hL : L.Sized B) (hf : f.Valid B) (hfuel : TEXT_LENGTH B + 1 < fuel) :
    loop_body port B fuel L (f.bytes ++ rest) tr
        = .ret (L.after B f, decide (port = .elmo)) rest
            (tr ++ frame_trace B L.ctx L.ciphertext f)
    ∧ frame_trace B L.ctx L.ciphertext f
        = f.bytes.map Event.recv
          ++ ([Event.keysetup f.key, Event.ivsetup f.iv, Event.set_trigger] ++ WAIT_NOP
              ++ [Event.encrypt f.plaintext] ++ WAIT_NOP ++ [Event.clear_trigger])
          ++ (START_BYTE :: (B.serve L.ctx L.ciphertext f).2).map Event.send
    ∧ disciplined false (frame_trace B L.ctx L.ciphertext f) = true
    ∧ trigger_after false (frame_trace B L.ctx L.ciphertext f) = false
    ∧ (∀ (fuel1 : Nat) (L1 : Locals G) (input : List Byte) (tr1 : List Event),
        Calm tr1 → Calm (loop_body port B fuel1 L1 input tr1).trace)
    ∧ (∀ (J : Junk G) (fuel1 : Nat) (input : List Byte),
        disciplined false (main port B J fuel1 input).trace = true) := by
  have c := calm_frame_trace B L.ctx L.ciphertext f [] calm_nil
  rw [List.nil_append] at c
  exact ⟨loop_body_frame port B fuel L f rest tr hB hL hf hfuel, rfl, c.1, c.2.1,
    fun fuel1 L1 input tr1 h => loop_body_calm port B fuel1 L1 input tr1 h,
    fun J fuel1 input => main_disciplined port B J fuel1 input⟩

/-- C3, at the unmasked back end on a board port with the second sample request. -/
theorem trigger_brackets_encrypt_witness :
    disciplined false (frame_trace tinyaes_sample
      (initial_locals tinyaes_sample zero_junk).ctx
      (initial_locals tinyaes_sample zero_junk).ciphertext other_frame) = true :=
  (trigger_brackets_encrypt .stm32 tinyaes_sample 18
    (initial_locals tinyaes_sample zero_junk) other_frame [] []
    ⟨by decide, by decide, by decide⟩ ⟨by decide, by decide, by decide, by decide⟩
    ⟨by decide, by decide, by decide⟩ (by decide)).2.2.1

/-! ## The padding -/

theorem nops_before_recv (bs : List Byte) (t : List Event) :
    nops_before_encrypt (bs.map Event.recv ++ t) = nops_before_encrypt t := by
  induction bs with
  | nil => rfl
  | cons b bs ih => simp [nops_before_encrypt, ih]

theorem nops_before_nops (n : Nat) (t : List Event) :
    nops_before_encrypt (List.replicate n Event.nop ++ t) = nops_before_encrypt t + n := by
  induction n with
  | zero => rfl
  | succ n ih =>
    show nops_before_encrypt (Event.nop :: (List.replicate n Event.nop ++ t)) = _
    rw [nops_before_encrypt, ih]
    omega

theorem nops_after_recv (bs : List Byte) (t : List Event) :
    nops_after_encrypt (bs.map Event.recv ++ t) = nops_after_encrypt t := by
  induction bs with
  | nil => rfl
  | cons b bs ih => simp [nops_after_encrypt, ih]

theorem nops_after_nops (n : Nat) (t : List Event) :
    nops_after_encrypt (List.replicate n Event.nop ++ t) = nops_after_encrypt t := by
  induction n with
  | zero => rfl
  | succ n ih => exact ih

theorem nops_after_setup (k v : List Byte) (t : List Event) :
    nops_after_encrypt ([Event.keysetup k, Event.ivsetup v, Event.set_trigger] ++ t)
      = nops_after_encrypt t := rfl

theorem nops_after_call (p : List Byte) (t : List Event) :
    nops_after_encrypt ([Event.encrypt p] ++ t) = t.count Event.nop := rfl

theorem count_nop_send (bs : List Byte) : (bs.map Event.send).count Event.nop = 0 := by
  apply List.count_eq_zero_of_not_mem
  simp

theorem frame_trace_eq {G : Type} (B : Backend G) (g : G) (c : List Byte) (f : Frame) :
    frame_trace B g c f = f.bytes.map Event.recv
      ++ ([Event.keysetup f.key, Event.ivsetup f.iv, Event.set_trigger]
      ++ (List.replicate 500 Event.nop ++ ([Event.encrypt f.plaintext]
      ++ (List.replicate 500 Event.nop ++ ([Event.clear_trigger]
      ++ (response B g c f).map Event.send))))) := by
  simp only [frame_trace, window_eq, List.append_assoc]

theorem nops_before_frame_trace {G : Type} (B : Backend G) (g : G) (c : List Byte)
    (f : Frame) : nops_before_encrypt (frame_trace B g c f) = 500 := by
  rw [frame_trace_eq, nops_before_recv]
  show nops_before_encrypt (List.replicate 500 Event.nop ++ (Event.encrypt f.plaintext :: _))
    = 500
  rw [nops_before_nops]
  rfl

theorem nops_after_frame_trace {G : Type} (B : Backend G) (g : G) (c : List Byte)
    (f : Frame) : nops_after_encrypt (frame_trace B g c f) = 500 := by
  rw [frame_trace_eq, nops_after_recv, nops_after_setup, nops_after_nops, nops_after_call,
    List.count_append, List.count_replicate_self, List.count_append, count_nop_send]
  rfl

/-- C8. `WAIT_NOP` is exactly 500 `NOP`s, five groups of ten groups of ten; a
processed request runs `WAIT_NOP` between `set_trigger` and the encrypt call and
the same `WAIT_NOP` between the encrypt call and `clear_trigger`; and for any
two requests, whatever their key, iv and plaintext bytes and whatever state the
loop is in, the pass executes 500 padding `NOP`s before and 500 after the encrypt
call. -/
theorem padding_is_constant {G : Type} (port : Port) (B : Backend G) (fuel : Nat)
    (L1 L2 : Locals G) (f1 f2 : Frame) (rest1 rest2 : List Byte)
    (hB : Fits B) (hL1 : L1.Sized B) (hL2 : L2.Sized B) (hf1 : f1.Valid B) (hf2 : f2.Valid B)
    (hfuel : TEXT_LENGTH B + 1 < fuel) :
    WAIT_NOP = List.replicate 500 Event.nop
    ∧ WAIT_NOP
        = (List.replicate 5
            (List.replicate 10 (List.replicate 10 Event.nop)).flatten).flatten
    ∧ (loop_body port B fuel L1 (f1.bytes ++ rest1) []).trace
        = f1.bytes.map Event.recv
          ++ ([Event.keysetup f1.key, Event.ivsetup f1.iv, Event.set_trigger] ++ WAIT_NOP
              ++ [Event.encrypt f1.plaintext] ++ WAIT_NOP ++ [Event.clear_trigger])
          ++ (START_BYTE :: (B.serve L1.ctx L1.ciphertext f1).2).map Event.send
    ∧ nops_before_encrypt (loop_body port B fuel L1 (f1.bytes ++ rest1) []).trace = 500
    ∧ nops_after_encrypt (loop_body port B fuel L1 (f1.bytes ++ rest1) []).trace = 500
    ∧ nops_before_encrypt (loop_body port B fuel L2 (f2.bytes ++ rest2) []).trace
        = nops_before_encrypt (loop_body port B fuel L1 (f1.bytes ++ rest1) []).trace
    ∧ nops_after_encrypt (loop_body port B fuel L2 (f2.bytes ++ rest2) []).trace
        = nops_after_encrypt (loop_body port B fuel L1 (f1.bytes ++ rest1) []).trace := by
  have e1 := loop_body_frame port B fuel L1 f1 rest1 [] hB hL1 hf1 hfuel
  have e2 := loop_body_frame port B fuel L2 f2 rest2 [] hB hL2 hf2 hfuel
  rw [List.nil_append] at e1 e2
  have t1 : (loop_body port B fuel L1 (f1.bytes ++ rest1) []).trace
      = frame_trace B L1.ctx L1.ciphertext f1 := by rw [e1]; rfl
  have t2 : (loop_body port B fuel L2 (f2.bytes ++ rest2) []).trace
      = frame_trace B L2.ctx L2.ciphertext f2 := by rw [e2]; rfl
  rw [t1, t2]
  refine ⟨WAIT_NOP_eq, ?_, rfl, nops_before_frame_trace _ _ _ _, nops_after_frame_trace _ _ _ _,
    ?_, ?_⟩
  · rw [WAIT_NOP_eq, List.flatten_replicate_replicate, List.flatten_replicate_replicate]
  · rw [nops_before_frame_trace, nops_before_frame_trace]
  · rw [nops_after_frame_trace, nops_after_frame_trace]

/-- C8, at the unmasked back end with two requests of different key, iv and
plaintext. -/
theorem padding_is_constant_witness :
    nops_before_encrypt (loop_body .native tinyaes_sample 18
        (initial_locals tinyaes_sample zero_junk) (other_frame.bytes ++ []) []).trace
      = nops_before_encrypt (loop_body .native tinyaes_sample 18
        (initial_locals tinyaes_sample zero_junk) (zero_frame.bytes ++ []) []).trace :=
  (padding_is_constant .native tinyaes_sample 18
    (initial_locals tinyaes_sample zero_junk) (initial_locals tinyaes_sample zero_junk)
    zero_frame other_frame [] []
    ⟨by decide, by decide, by decide⟩ ⟨by decide, by decide, by decide, by decide⟩
    ⟨by decide, by decide, by decide, by decide⟩ ⟨by decide, by decide, by decide⟩
    ⟨by decide, by decide, by decide⟩ (by decide)).2.2.2.2.2.1

/-! ## Single-shot mode -/

/-- Up to the first marker of an input that holds a marker. -/
theorem first_marker (pre : List Byte) : ∀ (tail0 : List Byte),
    ∃ noise tail, pre ++ START_BYTE :: tail0 = noise ++ START_BYTE :: tail
      ∧ (∀ b ∈ noise, b ≠ START_BYTE) ∧ tail0.length ≤ tail.length
      ∧ noise.length ≤ pre.length := by
  induction pre with
  | nil => intro tail0; exact ⟨[], tail0, rfl, by simp, Nat.le_refl _, Nat.le_refl _⟩
  | cons b pre ih =>
    intro tail0
    by_cases hb : b = START_BYTE
    · refine ⟨[], pre ++ START_BYTE :: tail0, by simp [hb], by simp, ?_, by simp⟩
      simp only [List.length_append, List.length_cons]
      omega
    · obtain ⟨noise, tail, h1, h2, h3, h4⟩ := ih tail0
      refine ⟨b :: noise, tail, by simp [h1], ?_, h3, by simp; omega⟩
      intro c hc
      rcases List.mem_cons.mp hc with rfl | hc
      · exact hb
      · exact h2 c hc

/-- A tail long enough for a request body splits into the three fields and the rest. -/
theorem split_body {G : Type} (B : Backend G) (tail : List Byte)
    (h : KEY_LENGTH B + IV_LENGTH B + TEXT_LENGTH B ≤ tail.length) :
    ∃ (f : Frame) (rest : List Byte), f.Valid B ∧
      START_BYTE :: tail = f.bytes ++ rest := by
  refine ⟨{ key := tail.take (KEY_LENGTH B),
            iv := (tail.drop (KEY_LENGTH B)).take (IV_LENGTH B),
            plaintext := ((tail.drop (KEY_LENGTH B)).drop (IV_LENGTH B)).take (TEXT_LENGTH B) },
    ((tail.drop (KEY_LENGTH B)).drop (IV_LENGTH B)).drop (TEXT_LENGTH B), ⟨?_, ?_, ?_⟩, ?_⟩
  · simp only [List.length_take]; omega
  · simp only [List.length_take, List.length_drop]; omega
  · simp only [List.length_take, List.length_drop]; omega
  · simp only [Frame.bytes, List.cons_append, List.append_assoc, List.take_append_drop]

/-- Noise, one request and anything after it, in single-shot mode. -/
theorem main_single_shot {G : Type} (B : Backend G) (J : Junk G) (noise : List Byte)
    (f : Frame) (rest : List Byte) (fuel : Nat)
    (hB : Fits B) (hf : f.Valid B) (hn : ∀ b ∈ noise, b ≠ START_BYTE)
    (hfuel : noise.length + TEXT_LENGTH B + 3 ≤ fuel) :
    main .elmo B J fuel (noise ++ (f.bytes ++ rest))
      = .ret 0 rest (Event.init_peripherals ::
          (noise.map Event.recv
            ++ frame_trace B J.ctx (List.replicate (TEXT_LENGTH B) 0) f
            ++ [Event.program_end])) := by
  obtain ⟨k, hk⟩ := Nat.exists_eq_add_of_le hfuel
  have hk2 : fuel = (k + (TEXT_LENGTH B + 2) + 1) + noise.length := by omega
  subst hk2
  have hS := Locals.skip_sized B noise _ (initial_locals_sized B J)
  have hc := Locals.skip_ctx noise (initial_locals B J)
  unfold main
  rw [main_loop_noise .elmo B noise _ _ _ _ hn]
  have h := main_loop_frame .elmo B (k + (TEXT_LENGTH B + 2)) _ f rest
    ([Event.init_peripherals] ++ noise.map Event.recv) hB hS hf (by omega)
  rw [h, hc.1, hc.2]
  simp [Res.bind, initial_locals]

theorem main_no_return {G : Type} (port : Port) (B : Backend G) (J : Junk G)
    (hport : port ≠ .elmo) (fuel : Nat) (input : List Byte) :
    (∀ (a : Nat) (i : List Byte) (t : List Event), main port B J fuel input ≠ .ret a i t)
    ∧ Event.program_end ∉ (main port B J fuel input).trace := by
  have c := main_loop_calm port B fuel (initial_locals B J) input [Event.init_peripherals]
    calm_init
  have nr := main_loop_no_return port B hport fuel (initial_locals B J) input
    [Event.init_peripherals]
  unfold main
  cases h : main_loop port B fuel (initial_locals B J) input [Event.init_peripherals] with
  | ret a i t => exact absurd h (nr i t)
  | exited code i t =>
    rw [h] at c
    exact ⟨fun a i t e => by simp [Res.bind] at e, c.2.2⟩
  | starved t =>
    rw [h] at c
    exact ⟨fun a i t e => by simp [Res.bind] at e, c.2.2⟩
  | diverge => exact ⟨fun a i t e => by simp [Res.bind] at e, by simp [Res.bind, Res.trace]⟩

/-- C6. In single-shot mode, for every input that holds a marker followed by at
least a complete request body: the input splits at its first marker into bytes
that are not the marker, one valid request and a rest; `main` returns 0 with
exactly that rest unread, having received the skipped bytes, processed that one
request, sent its one response and called `program_end` exactly once, as its
last effect.  In every other mode `main` never returns and never calls
`program_end`, whatever the input. -/
theorem single_shot_one_frame {G : Type} (B : Backend G) (J : Junk G)
    (pre body rest : List Byte) (fuel : Nat) (hB : Fits B)
    (hbody : body.length = KEY_LENGTH B + IV_LENGTH B + TEXT_LENGTH B)
    (hfuel : pre.length + TEXT_LENGTH B + 3 ≤ fuel) :
    (∃ (noise : List Byte) (f : Frame) (rest1 : List Byte),
      pre ++ START_BYTE :: (body ++ rest) = noise ++ (f.bytes ++ rest1)
      ∧ (∀ b ∈ noise, b ≠ START_BYTE) ∧ f.Valid B
      ∧ main .elmo B J fuel (pre ++ START_BYTE :: (body ++ rest))
          = .ret 0 rest1 (Event.init_peripherals ::
              (noise.map Event.recv
                ++ frame_trace B J.ctx (List.replicate (TEXT_LENGTH B) 0) f
                ++ [Event.program_end]))
      ∧ (main .elmo B J fuel (pre ++ START_BYTE :: (body ++ rest))).trace.count
          Event.program_end = 1
      ∧ sent (main .elmo B J fuel (pre ++ START_BYTE :: (body ++ rest))).trace
          = response B J.ctx (List.replicate (TEXT_LENGTH B) 0) f)
    ∧ (∀ (port : Port) (J1 : Junk G) (fuel1 : Nat) (input : List Byte), port ≠ .elmo →
        (∀ (a : Nat) (i : List Byte) (t : List Event),
          main port B J1 fuel1 input ≠ .ret a i t)
        ∧ Event.program_end ∉ (main port B J1 fuel1 input).trace) := by
  refine ⟨?_, fun port J1 fuel1 input hport => main_no_return port B J1 hport fuel1 input⟩
  obtain ⟨noise, tail, h1, h2, h3, h4⟩ := first_marker pre (body ++ rest)
  obtain ⟨f, rest1, hv, h5⟩ := split_body B tail (by
    simp only [List.length_append] at h3; omega)
  have e := main_single_shot B J noise f rest1 fuel hB hv h2 (by omega)
  rw [← h5, ← h1] at e
  refine ⟨noise, f, rest1, by rw [h1, h5], h2, hv, e, ?_, ?_⟩
  · rw [e]
    have c := calm_frame_trace B J.ctx (List.replicate (TEXT_LENGTH B) 0) f _
      (calm_recv _ noise calm_init)
    have hc : (Event.init_peripherals :: (noise.map Event.recv
        ++ frame_trace B J.ctx (List.replicate (TEXT_LENGTH B) 0) f)).count
          Event.program_end = 0 := by
      apply List.count_eq_zero_of_not_mem
      simpa using c.2.2
    have hs : Event.init_peripherals :: (noise.map Event.recv
        ++ frame_trace B J.ctx (List.replicate (TEXT_LENGTH B) 0) f ++ [Event.program_end])
        = (Event.init_peripherals :: (noise.map Event.recv
          ++ frame_trace B J.ctx (List.replicate (TEXT_LENGTH B) 0) f))
          ++ [Event.program_end] := by simp
    rw [Res.trace, hs, List.count_append, hc]
    rfl
  · rw [e, Res.trace, sent_init, sent_append, sent_append, sent_recv, sent_frame_trace]
    simp [sent]

/-- C6, at the unmasked back end in single-shot mode: two noise bytes, the
all-zero request, and two bytes after it that stay unread. -/
theorem single_shot_one_frame_witness :
    ∃ (noise : List Byte) (f : Frame) (rest1 : List Byte),
      [1, 2] ++ START_BYTE :: (List.replicate 48 0 ++ [7, 8]) = noise ++ (f.bytes ++ rest1)
      ∧ (∀ b ∈ noise, b ≠ START_BYTE) ∧ f.Valid tinyaes_sample
      ∧ main .elmo tinyaes_sample zero_junk 30
            ([1, 2] ++ START_BYTE :: (List.replicate 48 0 ++ [7, 8]))
          = .ret 0 rest1 (Event.init_peripherals ::
              (noise.map Event.recv
                ++ frame_trace tinyaes_sample zero_junk.ctx
                    (List.replicate (TEXT_LENGTH tinyaes_sample) 0) f
                ++ [Event.program_end]))
      ∧ (main .elmo tinyaes_sample zero_junk 30
            ([1, 2] ++ START_BYTE :: (List.replicate 48 0 ++ [7, 8]))).trace.count
          Event.program_end = 1
      ∧ sent (main .elmo tinyaes_sample zero_junk 30
            ([1, 2] ++ START_BYTE :: (List.replicate 48 0 ++ [7, 8]))).trace
          = response tinyaes_sample zero_junk.ctx
              (List.replicate (TEXT_LENGTH tinyaes_sample) 0) f :=
  (single_shot_one_frame tinyaes_sample zero_junk [1, 2] (List.replicate 48 0) [7, 8] 30
    ⟨by decide, by decide, by decide⟩ (by decide) (by decide)).1

/-! ## The Xoodoo layer -/

theorem xor_div_pow (a b : Nat) : ∀ k : Nat, (a ^^^ b) / 2 ^ k = a / 2 ^ k ^^^ b / 2 ^ k := by
  intro k
  induction k with
  | zero => simp
  | succ k ih =>
    rw [Nat.pow_succ, ← Nat.div_div_eq_div_mul, ← Nat.div_div_eq_div_mul,
      ← Nat.div_div_eq_div_mul, ih, Nat.xor_div_two]

theorem xor_mod_pow (a b k : Nat) : (a ^^^ b) % 2 ^ k = (a % 2 ^ k) ^^^ (b % 2 ^ k) := by
  apply Nat.eq_of_testBit_eq
  intro i
  simp only [Nat.testBit_mod_two_pow, Nat.testBit_xor]
  by_cases h : i < k <;> simp [h]

theorem byte_xor_val (a b : Byte) : (a ^^^ b).val = a.val ^^^ b.val := by
  show (a.val ^^^ b.val) % 256 = a.val ^^^ b.val
  exact Nat.mod_eq_of_lt (Nat.xor_lt_two_pow (n := 8) a.isLt b.isLt)

/-- Each byte of the exclusive-or of two words is the exclusive-or of their bytes. -/
theorem word_byte_xor (x y j : Nat) :
    word_byte (x ^^^ y) j = word_byte x j ^^^ word_byte y j := by
  apply Fin.ext
  rw [byte_xor_val]
  show (x ^^^ y) / 256 ^ j % 256 = (x / 256 ^ j % 256) ^^^ (y / 256 ^ j % 256)
  have h256 : (256 : Nat) = 2 ^ 8 := by norm_num
  rw [h256, ← Nat.pow_mul, xor_div_pow, xor_mod_pow]

theorem word_byte_0 (a b c d : Byte) :
    word_byte (a.val + 256 * b.val + 65536 * c.val + 16777216 * d.val) 0 = a := by
  apply Fin.ext
  have := a.isLt; have := b.isLt; have := c.isLt; have := d.isLt
  simp only [word_byte]
  omega

theorem word_byte_1 (a b c d : Byte) :
    word_byte (a.val + 256 * b.val + 65536 * c.val + 16777216 * d.val) 1 = b := by
  apply Fin.ext
  have := a.isLt; have := b.isLt; have := c.isLt; have := d.isLt
  simp only [word_byte]
  omega

theorem word_byte_2 (a b c d : Byte) :
    word_byte (a.val + 256 * b.val + 65536 * c.val + 16777216 * d.val) 2 = c := by
  apply Fin.ext
  have := a.isLt; have := b.isLt; have := c.isLt; have := d.isLt
  simp only [word_byte]
  omega

theorem word_byte_3 (a b c d : Byte) :
    word_byte (a.val + 256 * b.val + 65536 * c.val + 16777216 * d.val) 3 = d := by
  apply Fin.ext
  have := a.isLt; have := b.isLt; have := c.isLt; have := d.isLt
  simp only [word_byte]
  omega

theorem four_bytes (l : List Byte) (h : 4 ≤ l.length) :
    ∃ a b c d t, l = a :: b :: c :: d :: t := by
  rcases l with _ | ⟨a, _ | ⟨b, _ | ⟨c, _ | ⟨d, t⟩⟩⟩⟩
  · simp at h
  · simp at h
  · simp at h
  · simp at h
  · exact ⟨a, b, c, d, t, rfl⟩

theorem sixteen_bytes (l : List Byte) (h : 16 ≤ l.length) :
    ∃ A0 A1 A2 A3 A4 A5 A6 A7 A8 A9 A10 A11 A12 A13 A14 A15 t,
      l = A0 :: A1 :: A2 :: A3 :: A4 :: A5 :: A6 :: A7 :: A8 :: A9 :: A10 :: A11 :: A12
        :: A13 :: A14 :: A15 :: t := by
  obtain ⟨A0, A1, A2, A3, t1, rfl⟩ := four_bytes l (by omega)
  obtain ⟨A4, A5, A6, A7, t2, rfl⟩ := four_bytes t1 (by simp at h; omega)
  obtain ⟨A8, A9, A10, A11, t3, rfl⟩ := four_bytes t2 (by simp at h; omega)
  obtain ⟨A12, A13, A14, A15, t4, rfl⟩ := four_bytes t3 (by simp at h; omega)
  exact ⟨A0, A1, A2, A3, A4, A5, A6, A7, A8, A9, A10, A11, A12, A13, A14, A15, t4, rfl⟩

/-- The four word exclusive-ors of `Absorb_Block` are a bytewise exclusive-or of
the first 16 bytes, on either byte order; the bytes from 16 on are unchanged. -/
theorem Absorb_Block_bytewise (e : Endian) (state block : List Byte)
    (hs : 16 ≤ state.length) (hb : 16 ≤ block.length) :
    Absorb_Block e state block
      = xor_bytes (state.take 16) (block.take 16) ++ state.drop 16 := by
  obtain ⟨a0, a1, a2, a3, a4, a5, a6, a7, a8, a9, a10, a11, a12, a13, a14, a15, t, rfl⟩ :=
    sixteen_bytes state hs
  obtain ⟨b0, b1, b2, b3, b4, b5, b6, b7, b8, b9, b10, b11, b12, b13, b14, b15, u, rfl⟩ :=
    sixteen_bytes block hb
  cases e <;>
  simp only [Absorb_Block, xor_bytes, List.range_succ, List.range_zero, List.nil_append,
    List.cons_append, List.foldl, load32, store32, Nat.mul_zero, Nat.mul_one, Nat.zero_add,
    List.getD_cons_zero, List.getD_cons_succ, List.set_cons_zero, List.set_cons_succ,
    word_byte_xor, word_byte_0, word_byte_1, word_byte_2, word_byte_3, List.take_succ_cons,
    List.take_zero, List.drop_succ_cons, List.drop_zero, List.zipWith_cons_cons,
    List.zipWith_nil_left]

theorem xoodoo_fixed_key_length : xoodoo_fixed_key.length = 48 := rfl

theorem xoodoo_keysetup_state (e : Endian) (bl mk mi : Nat)
    (init_masks : List Nat → List Byte → List Nat)
    (permute : List Byte → List Nat → List Byte × List Nat)
    (g : XoodooGlobals) (key : List Byte) (ks vs : Nat) (hg : g.XoodooState.length = 48) :
    ((xoodoo e bl mk mi init_masks permute).ECRYPT_keysetup g key ks vs)
      = { XoodooState := xoodoo_fixed_key, XoodooMask := g.XoodooMask } := by
  simp only [xoodoo]
  rw [store_from_zero xoodoo_fixed_key g.XoodooState (by rw [hg, xoodoo_fixed_key_length])]

theorem xoodoo_serve (e : Endian) (bl mk mi : Nat)
    (init_masks : List Nat → List Byte → List Nat)
    (permute : List Byte → List Nat → List Byte × List Nat)
    (hbl : bl / 8 = 16) (hperm : ∀ s m, (permute s m).1.length = s.length)
    (g : XoodooGlobals) (c : List Byte) (f : Frame)
    (hg : g.XoodooState.length = 48) (hp : f.plaintext.length = 16) (hc : c.length = 16) :
    ((xoodoo e bl mk mi init_masks permute).serve g c f).2
      = (permute (xor_bytes (xoodoo_fixed_key.take 16) f.plaintext
            ++ xoodoo_fixed_key.drop 16) (init_masks g.XoodooMask f.iv)).1.take 16 := by
  have hk := xoodoo_keysetup_state e bl mk mi init_masks permute g f.key
    (xoodoo e bl mk mi init_masks permute).ECRYPT_MAXKEYSIZE
    (xoodoo e bl mk mi init_masks permute).ECRYPT_MAXIVSIZE hg
  unfold Backend.serve
  rw [hk]
  simp only [xoodoo, hbl]
  have ha := Absorb_Block_bytewise e xoodoo_fixed_key f.plaintext
    (by rw [xoodoo_fixed_key_length]; omega) (by omega)
  have ht : f.plaintext.take 16 = f.plaintext := List.take_of_length_le (by omega)
  rw [ht] at ha
  rw [ha]
  apply copy_bytes_eq _ _ 16 hc
  rw [hperm, ← ha, show (Absorb_Block e xoodoo_fixed_key f.plaintext).length = 48 from ?_]
  · omega
  · rw [ha]
    simp only [xor_bytes, List.length_append, List.length_zipWith, List.length_take,
      List.length_drop, xoodoo_fixed_key_length, hp]
    rfl

/-- C9. With the Xoodoo layer at a 16-byte block: key setup leaves the 48 state
bytes at one fixed constant whatever the key and the earlier state; the four
word exclusive-ors of `Absorb_Block` are a bytewise exclusive-or of 16 bytes on
either byte order, the other 32 bytes unchanged; the ciphertext of a request is
the first 16 bytes of the permutation applied to that constant absorbed with the
plaintext, under the masks set up from the iv; hence two requests that differ
only in their key get the same response, from any state and through `main`. -/
theorem xoodoo_key_is_ignored (e : Endian) (bl mk mi : Nat)
    (init_masks : List Nat → List Byte → List Nat)
    (permute : List Byte → List Nat → List Byte × List Nat)
    (port : Port) (J : Junk XoodooGlobals) (f1 f2 : Frame) (fuel : Nat)
    (hbl : bl / 8 = 16) (hperm : ∀ s m, (permute s m).1.length = s.length)
    (hB : Fits (xoodoo e bl mk mi init_masks permute))
    (hf1 : f1.Valid (xoodoo e bl mk mi init_masks permute))
    (hf2 : f2.Valid (xoodoo e bl mk mi init_masks permute))
    (hiv : f1.iv = f2.iv) (hpt : f1.plaintext = f2.plaintext)
    (hfuel : TEXT_LENGTH (xoodoo e bl mk mi init_masks permute) + 3 ≤ fuel) :
    (∀ (g : XoodooGlobals) (key : List Byte) (ks vs : Nat), g.XoodooState.length = 48 →
        ((xoodoo e bl mk mi init_masks permute).ECRYPT_keysetup g key ks vs).XoodooState
          = xoodoo_fixed_key)
    ∧ xoodoo_fixed_key.length = 48
    ∧ (∀ (state block : List Byte), 16 ≤ state.length → 16 ≤ block.length →
        Absorb_Block e state block
          = xor_bytes (state.take 16) (block.take 16) ++ state.drop 16)
    ∧ (∀ (g : XoodooGlobals) (c : List Byte) (f : Frame), g.XoodooState.length = 48 →
        f.plaintext.length = 16 → c.length = 16 →
        ((xoodoo e bl mk mi init_masks permute).serve g c f).2
          = (permute (xor_bytes (xoodoo_fixed_key.take 16) f.plaintext
                ++ xoodoo_fixed_key.drop 16) (init_masks g.XoodooMask f.iv)).1.take 16)
    ∧ (∀ (g : XoodooGlobals) (c : List Byte),
        response (xoodoo e bl mk mi init_masks permute) g c f1
          = response (xoodoo e bl mk mi init_masks permute) g c f2)
    ∧ sent (main port (xoodoo e bl mk mi init_masks permute) J fuel f1.bytes).trace
        = sent (main port (xoodoo e bl mk mi init_masks permute) J fuel f2.bytes).trace := by
  have hr : ∀ (g : XoodooGlobals) (c : List Byte),
      response (xoodoo e bl mk mi init_masks permute) g c f1
        = response (xoodoo e bl mk mi init_masks permute) g c f2 := by
    intro g c
    simp only [response, Backend.serve, xoodoo, hiv, hpt]
  refine ⟨?_, rfl, fun state block h1 h2 => Absorb_Block_bytewise e state block h1 h2,
    fun g c f hg hp hc => xoodoo_serve e bl mk mi init_masks permute hbl hperm g c f hg hp hc,
    hr, ?_⟩
  · intro g key ks vs hg
    rw [xoodoo_keysetup_state e bl mk mi init_masks permute g key ks vs hg]
  · have h1 := main_noise_frame port _ J [] f1 fuel hB hf1 (by simp)
      (by simp only [List.length_nil]; omega)
    have h2 := main_noise_frame port _ J [] f2 fuel hB hf2 (by simp)
      (by simp only [List.length_nil]; omega)
    simp only [List.nil_append, List.map_nil] at h1 h2
    rw [h1, h2, finish_trace_sent, finish_trace_sent, sent_init, sent_init, sent_frame_trace,
      sent_frame_trace, hr]

/-- C9, at the Xoodoo back end over the sample primitives: a request and the
same request under another key get the same bytes from `main`. -/
theorem xoodoo_key_is_ignored_witness :
    sent (main .native xoodoo_sample xoodoo_junk 20 other_frame.bytes).trace
      = sent (main .native xoodoo_sample xoodoo_junk 20 rekeyed_frame.bytes).trace :=
  (xoodoo_key_is_ignored .little 128 128 128 sample_masks sample_permute .native xoodoo_junk
    other_frame rekeyed_frame 20 (by decide) (fun s m => by simp [sample_permute])
    ⟨by decide, by decide, by decide⟩ ⟨by decide, by decide, by decide⟩
    ⟨by decide, by decide, by decide⟩ rfl rfl (by decide)).2.2.2.2.2

end ABBY
